import Mathlib

/-!
Verification of the asset acquisition/caching/validation pipeline of
`scripts/html_banner_scraper.py` against its natural-language specification.

Modelling conventions.

Python `str` values are modelled as `List Char`, read as byte strings: the
URLs this pipeline manipulates are ASCII, and `urllib.parse.unquote` is
modelled at the byte level (a `%XX` escape decodes to the character with
code `XX`; Python additionally recombines multi-byte UTF-8 sequences, which
is immaterial for these properties).  Downloaded content (`bytes`) is
modelled as `List Nat`, one entry per byte.

The relevant behaviour of `urllib.parse` (CPython 3.11: `urlsplit`,
`urlparse`, `urlunsplit`, `urlunparse`, `urljoin`, `quote`, `unquote`) is
embedded alongside the scraper's own functions, since `_normalize_url` is a
thin composition of those primitives.  `urlsplit`'s rejection of netlocs
with unbalanced brackets is modelled via `Except`; the deeper
`_check_bracketed_host` / `_checknetloc` validations (which require IP
address parsing and Unicode NFKC data) are not modelled and are treated as
succeeding.
-/

set_option maxRecDepth 4096

namespace Scraper

/-- Convert a string literal to the `List Char` representation used throughout. -/
def pstr (s : String) : List Char :=
  s.data

/-! ### Character classes -/

def isAsciiUpperC (c : Char) : Bool :=
  'A' ≤ c && c ≤ 'Z'

def isAsciiLowerC (c : Char) : Bool :=
  'a' ≤ c && c ≤ 'z'

def isAsciiAlphaC (c : Char) : Bool :=
  isAsciiUpperC c || isAsciiLowerC c

def isAsciiDigitC (c : Char) : Bool :=
  '0' ≤ c && c ≤ '9'

def isAlnumC (c : Char) : Bool :=
  isAsciiAlphaC c || isAsciiDigitC c

def isHexDigitC (c : Char) : Bool :=
  isAsciiDigitC c || ('a' ≤ c && c ≤ 'f') || ('A' ≤ c && c ≤ 'F')

def hexVal (c : Char) : Nat :=
  if isAsciiDigitC c then c.toNat - '0'.toNat
  else if 'a' ≤ c && c ≤ 'f' then c.toNat - 'a'.toNat + 10
  else c.toNat - 'A'.toNat + 10

def hexDigitUpper (n : Nat) : Char :=
  if n < 10 then Char.ofNat ('0'.toNat + n) else Char.ofNat ('A'.toNat + n - 10)

/-- ASCII lower-casing of one character, as `str.lower` does on ASCII input. -/
def toLowerC (c : Char) : Char :=
  if isAsciiUpperC c then Char.ofNat (c.toNat + 32) else c

def lowerStr (s : List Char) : List Char :=
  s.map toLowerC

/-! ### List-of-char utilities mirroring Python string operations -/

/-- Boolean `s.startswith(pre)`. -/
def startsWithL (pre s : List Char) : Bool :=
  match pre, s with
  | [], _ => true
  | _ :: _, [] => false
  | a :: as, b :: bs => a = b && startsWithL as bs

/-- Boolean `s.endswith(suf)`. -/
def endsWithL (suf s : List Char) : Bool :=
  startsWithL suf.reverse s.reverse

/-- Boolean substring containment, Python's `needle in s`. -/
def containsL (needle : List Char) : List Char → Bool
  | [] => startsWithL needle []
  | c :: t => startsWithL needle (c :: t) || containsL needle t

/-- Split at the first occurrence of `sep`, Python's `s.split(sep, 1)`
when the separator occurs; `none` when it does not. -/
def splitFirst (sep : Char) : List Char → Option (List Char × List Char)
  | [] => none
  | x :: xs =>
    if x = sep then some ([], xs)
    else
      match splitFirst sep xs with
      | none => none
      | some (a, b) => some (x :: a, b)

/-- Split at the last occurrence of `sep` (used for `str.rfind`). -/
def splitLast (sep : Char) (s : List Char) : Option (List Char × List Char) :=
  match splitFirst sep s.reverse with
  | none => none
  | some (a, b) => some (b.reverse, a.reverse)

/-- Longest prefix free of every character in `stops`, plus the remainder
(Python's `_splitnetloc` delimiter scan). -/
def takeUntilAny (stops : List Char) : List Char → List Char × List Char
  | [] => ([], [])
  | c :: t =>
    if stops.contains c then ([], c :: t)
    else
      let r := takeUntilAny stops t
      (c :: r.1, r.2)

/-- Python's `s.split(sep)` (always at least one part). -/
def splitAll (sep : Char) : List Char → List (List Char)
  | [] => [[]]
  | c :: t =>
    let r := splitAll sep t
    if c = sep then [] :: r
    else
      match r with
      | [] => [[c]]
      | h :: rest => (c :: h) :: rest

/-- Python's `sep.join(parts)`. -/
def joinSep (sep : Char) : List (List Char) → List Char
  | [] => []
  | [x] => x
  | x :: xs => x ++ sep :: joinSep sep xs

/-! ### Percent encoding: `urllib.parse.unquote` / `urllib.parse.quote`

Byte-level model: an escape `%XX` (two hex digits) decodes to the character
of code `XX`; any other character passes through.  `quote` keeps the
always-safe characters (alphanumerics and `_.-~`) plus the caller-supplied
safe set, and escapes every other character of code below 256 as an
upper-case `%XX`.  Characters above `U+00FF` are passed through (Python
percent-encodes their UTF-8 bytes; the scraper's URLs are ASCII, and both
treatments are invisible to the properties proved here). -/

def unquote : List Char → List Char
  | [] => []
  | '%' :: h1 :: h2 :: rest =>
    if isHexDigitC h1 && isHexDigitC h2 then
      Char.ofNat (16 * hexVal h1 + hexVal h2) :: unquote rest
    else
      '%' :: unquote (h1 :: h2 :: rest)
  | c :: rest => c :: unquote rest

def isSafeChar (safe : List Char) (c : Char) : Bool :=
  isAlnumC c || c ∈ ['_', '.', '-', '~'] || c ∈ safe

def pctUpper (n : Nat) : List Char :=
  ['%', hexDigitUpper (n / 16), hexDigitUpper (n % 16)]

def quoteChar (safe : List Char) (c : Char) : List Char :=
  if isSafeChar safe c then [c]
  else if c.toNat < 256 then pctUpper c.toNat
  else [c]

def quoteL (safe : List Char) : List Char → List Char
  | [] => []
  | c :: t => quoteChar safe c ++ quoteL safe t

/-- One round of the scraper's repeated-decode loop, with fuel: the loop
`while decoded != previous: previous = decoded; decoded = unquote(decoded)`
of `_normalize_url`.  Each productive `unquote` round strictly shortens the
string, so `length + 1` rounds of fuel always reach the fixed point. -/
def unquoteFixFuel : Nat → List Char → List Char
  | 0, s => s
  | fuel + 1, s =>
    let t := unquote s
    if t = s then s else unquoteFixFuel fuel t

def unquoteFix (s : List Char) : List Char :=
  unquoteFixFuel (s.length + 1) s

end Scraper

namespace Scraper

/-! ### The `urllib.parse` model (CPython 3.11)

`UrlParts` is the six-tuple returned by `urlparse`:
scheme, netloc, path, params, query, fragment. -/

structure UrlParts where
  scheme : List Char
  netloc : List Char
  path : List Char
  params : List Char
  query : List Char
  fragment : List Char
deriving DecidableEq, Repr

/-- Leading strip of C0 controls and space (`_WHATWG_C0_CONTROL_OR_SPACE`). -/
def lstripC0 (s : List Char) : List Char :=
  s.dropWhile (fun c => c.toNat ≤ 32)

/-- Removal of the unsafe bytes tab, CR and LF everywhere
(`_UNSAFE_URL_BYTES_TO_REMOVE`). -/
def dropBadBytes (s : List Char) : List Char :=
  s.filter (fun c => !(c = '\t' || c = '\r' || c = '\n'))

/-- The URL preprocessing performed at the top of `urlsplit`. -/
def sanitizeUrl (s : List Char) : List Char :=
  dropBadBytes (lstripC0 s)

/-- Characters allowed in a scheme (`scheme_chars`). -/
def isSchemeChar (c : Char) : Bool :=
  isAlnumC c || c ∈ ['+', '-', '.']

def schemeHeadOk : List Char → Bool
  | [] => false
  | c :: _ => isAsciiAlphaC c

/-- CPython 3.11 `urlsplit` (without params), with the default-scheme
argument.  Unbalanced square brackets in the netloc raise `ValueError`,
modelled as `Except.error`. -/
def urlsplitE (scheme0 url0 : List Char) : Except Unit UrlParts :=
  let url := sanitizeUrl url0
  let schemeUrl :=
    match splitFirst ':' url with
    | some (before, after) =>
      if before ≠ [] && schemeHeadOk before && before.all isSchemeChar then
        (lowerStr before, after)
      else (scheme0, url)
    | none => (scheme0, url)
  let scheme := schemeUrl.1
  let url1 := schemeUrl.2
  let netlocUrl :=
    if startsWithL (pstr "//") url1 then takeUntilAny (pstr "/?#") (url1.drop 2)
    else ([], url1)
  let netloc := netlocUrl.1
  let url2 := netlocUrl.2
  if (netloc.contains '[' && !netloc.contains ']')
      || (netloc.contains ']' && !netloc.contains '[') then
    .error ()
  else
    let urlFrag :=
      match splitFirst '#' url2 with
      | some (a, b) => (a, b)
      | none => (url2, [])
    let urlQuery :=
      match splitFirst '?' urlFrag.1 with
      | some (a, b) => (a, b)
      | none => (urlFrag.1, [])
    .ok ⟨scheme, netloc, urlQuery.1, [], urlQuery.2, urlFrag.2⟩

/-- CPython `_splitparams`.  Only ever called when `';'` occurs in the
path; the `dropLast` corner in the slash-free branch mirrors Python's
`url[:i], url[i+1:]` with `i = -1`. -/
def splitparamsM (u : List Char) : List Char × List Char :=
  if u.contains '/' then
    match splitLast '/' u with
    | some (pre, post) =>
      match splitFirst ';' post with
      | none => (u, [])
      | some (a, b) => (pre ++ '/' :: a, b)
    | none => (u, [])
  else
    match splitFirst ';' u with
    | none => (u.dropLast, u)
    | some (a, b) => (a, b)

def usesParams : List (List Char) :=
  [pstr "", pstr "ftp", pstr "hdl", pstr "prospero", pstr "http", pstr "imap",
   pstr "https", pstr "shttp", pstr "rtsp", pstr "rtsps", pstr "rtspu",
   pstr "sip", pstr "sips", pstr "mms", pstr "sftp", pstr "tel"]

def usesRelative : List (List Char) :=
  [pstr "", pstr "ftp", pstr "http", pstr "gopher", pstr "nntp", pstr "imap",
   pstr "wais", pstr "file", pstr "https", pstr "shttp", pstr "mms",
   pstr "prospero", pstr "rtsp", pstr "rtsps", pstr "rtspu", pstr "sftp",
   pstr "svn", pstr "svn+ssh", pstr "ws", pstr "wss"]

def usesNetloc : List (List Char) :=
  [pstr "", pstr "ftp", pstr "http", pstr "gopher", pstr "nntp", pstr "telnet",
   pstr "imap", pstr "wais", pstr "file", pstr "mms", pstr "https",
   pstr "shttp", pstr "snews", pstr "prospero", pstr "rtsp", pstr "rtsps",
   pstr "rtspu", pstr "rsync", pstr "svn", pstr "svn+ssh", pstr "sftp",
   pstr "nfs", pstr "git", pstr "git+ssh", pstr "ws", pstr "wss"]

/-- CPython 3.11 `urlparse`. -/
def urlparseE (scheme0 url : List Char) : Except Unit UrlParts := do
  let s ← urlsplitE scheme0 url
  if usesParams.contains s.scheme && s.path.contains ';' then
    let pp := splitparamsM s.path
    pure ⟨s.scheme, s.netloc, pp.1, pp.2, s.query, s.fragment⟩
  else
    pure s

/-- CPython 3.11 `urlunsplit`. -/
def urlunsplitM (scheme netloc url query fragment : List Char) : List Char :=
  let url :=
    if netloc ≠ [] ∨ (scheme ≠ [] ∧ usesNetloc.contains scheme ∧ ¬ startsWithL (pstr "//") url) then
      let u2 := if url ≠ [] ∧ url.head? ≠ some '/' then '/' :: url else url
      '/' :: '/' :: (netloc ++ u2)
    else url
  let url := if scheme ≠ [] then scheme ++ ':' :: url else url
  let url := if query ≠ [] then url ++ '?' :: query else url
  if fragment ≠ [] then url ++ '#' :: fragment else url

/-- CPython 3.11 `urlunparse`. -/
def urlunparseM (scheme netloc path params query fragment : List Char) : List Char :=
  let u := if params ≠ [] then path ++ ';' :: params else path
  urlunsplitM scheme netloc u query fragment

/-- The in-place middle filter `segments[1:-1] = filter(None, segments[1:-1])`
of `urljoin`. -/
def filterMiddle : List (List Char) → List (List Char)
  | [] => []
  | [x] => [x]
  | x :: xs => x :: ((xs.dropLast.filter (fun s => s ≠ [])) ++ [xs.getLastD []])

/-- The `..` / `.` segment resolution loop of `urljoin`. -/
def resolveSegments (segments : List (List Char)) : List (List Char) :=
  let resolved := segments.foldl
    (fun acc seg =>
      if seg = pstr ".." then acc.dropLast
      else if seg = pstr "." then acc
      else acc ++ [seg]) []
  if segments.getLastD [] = pstr ".." ∨ segments.getLastD [] = pstr "." then
    resolved ++ [[]]
  else resolved

/-- CPython 3.11 `urljoin`.  Parse errors from either argument propagate
(they are caught by `_normalize_url`'s handler). -/
def urljoinE (base url : List Char) : Except Unit (List Char) :=
  if base = [] then .ok url
  else if url = [] then .ok base
  else do
    let b ← urlparseE [] base
    let u ← urlparseE b.scheme url
    if u.scheme ≠ b.scheme ∨ ¬ usesRelative.contains u.scheme then
      .ok url
    else if usesNetloc.contains u.scheme ∧ u.netloc ≠ [] then
      .ok (urlunparseM u.scheme u.netloc u.path u.params u.query u.fragment)
    else
      let netloc := if usesNetloc.contains u.scheme then b.netloc else u.netloc
      if u.path = [] ∧ u.params = [] then
        let query := if u.query = [] then b.query else u.query
        .ok (urlunparseM u.scheme netloc b.path b.params query u.fragment)
      else
        let baseParts := splitAll '/' b.path
        let baseParts := if baseParts.getLastD [] ≠ [] then baseParts.dropLast else baseParts
        let segments :=
          if startsWithL (pstr "/") u.path then splitAll '/' u.path
          else filterMiddle (baseParts ++ splitAll '/' u.path)
        let joined := joinSep '/' (resolveSegments segments)
        let path := if joined = [] then pstr "/" else joined
        .ok (urlunparseM u.scheme netloc path u.params u.query u.fragment)

end Scraper

namespace Scraper

/-! ### `_normalize_url` (html_banner_scraper.py lines 126-225) -/

/-- Per-segment treatment of the path: nonempty segments are repeatedly
percent-decoded to a fixed point and re-encoded with safe set `-._~`;
empty segments pass through. -/
def encodeSegment (part : List Char) : List Char :=
  if part = [] then [] else quoteL (pstr "-._~") (unquoteFix part)

def encodePath (path : List Char) : List Char :=
  joinSep '/' ((splitAll '/' path).map encodeSegment)

/-- The Google-Fonts host test `'fonts.googleapis.com' in parsed.netloc.lower()`. -/
def fontsHost (netloc : List Char) : Bool :=
  containsL (pstr "fonts.googleapis.com") (lowerStr netloc)

/-- Query treatment: kept fully decoded for the font service, decoded once
and re-encoded with safe set `=&` otherwise; empty query stays empty. -/
def encodeQuery (netloc query : List Char) : List Char :=
  if query = [] then []
  else if fontsHost netloc then unquoteFix query
  else quoteL (pstr "=&") (unquote query)

/-- Reassembly of the normalized URL from the parsed components. -/
def rebuildParsed (p : UrlParts) : List Char :=
  urlunparseM p.scheme p.netloc (encodePath p.path) p.params
    (encodeQuery p.netloc p.query) p.fragment

/-- Pass-through test at the top of `_normalize_url`:
`if not url or url.startswith(('data:', 'javascript:', '#'))`. -/
def passThroughUrl (url : List Char) : Bool :=
  url = [] || startsWithL (pstr "data:") url || startsWithL (pstr "javascript:") url
    || startsWithL (pstr "#") url

def httpPrefixed (url : List Char) : Bool :=
  startsWithL (pstr "http://") url || startsWithL (pstr "https://") url

/-- Control flow of `_normalize_url` up to the successful parse of the
resolved absolute URL: `none` covers every branch that returns the input
unchanged (pass-through schemes, a relative reference without a usable
base, and any exception from `urljoin`/`urlparse`). -/
def normCore (url : List Char) (base : Option (List Char)) : Option UrlParts :=
  if passThroughUrl url then none
  else
    let fullE : Option (Except Unit (List Char)) :=
      if httpPrefixed url then some (.ok url)
      else
        match base with
        | some b => if b = [] then none else some (urljoinE b url)
        | none => none
    match fullE with
    | none => none
    | some (.error _) => none
    | some (.ok full) =>
      match urlparseE [] full with
      | .error _ => none
      | .ok p => some p

/-- The scraper's `_normalize_url(url, base_url)`. -/
def normalizeUrl (url : List Char) (base : Option (List Char)) : List Char :=
  match normCore url base with
  | none => url
  | some p => rebuildParsed p

/-! ### `_get_expected_content_type` (lines 227-267) -/

def imageExts : List (List Char) :=
  [pstr ".jpg", pstr ".jpeg", pstr ".png", pstr ".gif", pstr ".svg",
   pstr ".webp", pstr ".bmp", pstr ".ico"]

def jsExts : List (List Char) :=
  [pstr ".js", pstr ".mjs"]

def fontExts : List (List Char) :=
  [pstr ".woff", pstr ".woff2", pstr ".ttf", pstr ".otf", pstr ".eot"]

def textExts : List (List Char) :=
  [pstr ".xml", pstr ".json", pstr ".txt"]

/-- Expected content category of a URL.  The classifier calls `urlparse`
without a guard, so a parse failure propagates to the caller's generic
exception handler; this is surfaced as `Except.error`. -/
def getExpectedContentTypeE (url : List Char) : Except Unit (List Char) := do
  let parsed ← urlparseE [] url
  let path := lowerStr parsed.path
  if fontsHost parsed.netloc &&
      (containsL (pstr "css") (lowerStr parsed.path)
        || containsL (pstr "css") (lowerStr parsed.query)
        || startsWithL (pstr "/css") (lowerStr parsed.path)) then
    pure (pstr "css")
  else if imageExts.any (fun e => endsWithL e path) then
    pure (pstr "image")
  else if endsWithL (pstr ".css") path then
    pure (pstr "css")
  else if jsExts.any (fun e => endsWithL e path) then
    pure (pstr "javascript")
  else if fontExts.any (fun e => endsWithL e path) then
    pure (pstr "font")
  else if textExts.any (fun e => endsWithL e path) then
    pure (pstr "text")
  else
    pure (pstr "other")

end Scraper

namespace Scraper

/-! ### `_validate_content_type` and helpers (lines 269-438)

Downloaded content is a byte list. -/

def byteLower (b : Nat) : Nat :=
  if 0x41 ≤ b && b ≤ 0x5A then b + 32 else b

def startsWithB (pre s : List Nat) : Bool :=
  match pre, s with
  | [], _ => true
  | _ :: _, [] => false
  | a :: as, b :: bs => a = b && startsWithB as bs

def containsB (needle : List Nat) : List Nat → Bool
  | [] => startsWithB needle []
  | c :: t => startsWithB needle (c :: t) || containsB needle t

/-- Little-endian 32-bit read of `content[34:38]`, as
`struct.unpack('<L', content[34:38])` does; fewer than four available
bytes is the `struct.error` case. -/
def eotField (content : List Nat) : Except Unit Nat :=
  match (content.drop 34).take 4 with
  | [b0, b1, b2, b3] => .ok (b0 + 256 * b1 + 65536 * b2 + 16777216 * b3)
  | _ => .error ()

/-- `_validate_by_magic_bytes` (lines 304-357).  The only source of an
exception is the EOT check: `struct.unpack` on a short slice when
`34 < len(content) < 38`. -/
def validateByMagicBytes (content : List Nat) (expected : List Char) : Except Unit Bool :=
  if content.length < 4 then .ok false
  else if expected = pstr "image" then
    .ok (content.take 2 = [0xFF, 0xD8]
      || content.take 8 = [0x89, 0x50, 0x4E, 0x47, 0x0D, 0x0A, 0x1A, 0x0A]
      || content.take 6 = [0x47, 0x49, 0x46, 0x38, 0x37, 0x61]
      || content.take 6 = [0x47, 0x49, 0x46, 0x38, 0x39, 0x61]
      || (content.take 4 = [0x52, 0x49, 0x46, 0x46] && (content.drop 8).take 4 = [0x57, 0x45, 0x42, 0x50])
      || content.take 2 = [0x42, 0x4D]
      || content.take 4 = [0x00, 0x00, 0x01, 0x00]
      || containsB [0x3C, 0x73, 0x76, 0x67] ((content.take 200).map byteLower))
  else if expected = pstr "font" then
    if content.take 4 = [0x77, 0x4F, 0x46, 0x46]
        || content.take 4 = [0x77, 0x4F, 0x46, 0x32]
        || content.take 4 = [0x00, 0x01, 0x00, 0x00]
        || content.take 4 = [0x4F, 0x54, 0x54, 0x4F]
        || content.take 4 = [0x74, 0x72, 0x75, 0x65]
        || content.take 4 = [0x74, 0x79, 0x70, 0x31] then
      .ok true
    else if content.length > 34 then
      match eotField content with
      | .error e => .error e
      | .ok v => .ok (v = 0x504C)
    else .ok false
  else .ok false

def imageMimes : List (List Char) :=
  [pstr "image/jpeg", pstr "image/png", pstr "image/gif", pstr "image/svg",
   pstr "image/webp", pstr "image/bmp", pstr "image/x-icon",
   pstr "image/vnd.microsoft.icon"]

def jsMimes : List (List Char) :=
  [pstr "application/javascript", pstr "application/x-javascript", pstr "text/javascript"]

def fontMimes : List (List Char) :=
  [pstr "font/", pstr "application/font", pstr "application/x-font",
   pstr "application/vnd.ms-fontobject"]

def textMimes : List (List Char) :=
  [pstr "text/", pstr "application/json", pstr "application/xml"]

/-- `_validate_by_content_type_header` (lines 359-399). -/
def validateByHeaderM (hdr expected : List Char) : Bool :=
  if hdr = [] then false
  else
    let h := lowerStr hdr
    if expected = pstr "image" then imageMimes.any (fun m => containsL m h)
    else if expected = pstr "css" then containsL (pstr "text/css") h
    else if expected = pstr "javascript" then jsMimes.any (fun m => containsL m h)
    else if expected = pstr "font" then fontMimes.any (fun m => containsL m h)
    else if expected = pstr "text" then textMimes.any (fun m => containsL m h)
    else false

def isContByte (b : Nat) : Bool :=
  0x80 ≤ b && b ≤ 0xBF

/-- Fuel-driven UTF-8 decoder with the `errors='ignore'` policy: invalid
leading bytes and incomplete sequences are skipped byte-by-byte.  The
structural text check below only inspects ASCII tokens, so the continuation
ranges carry all the precision those checks can observe. -/
def decodeUtf8IgnoreFuel : Nat → List Nat → List Char
  | 0, _ => []
  | _, [] => []
  | fuel + 1, b :: rest =>
    if b < 0x80 then Char.ofNat b :: decodeUtf8IgnoreFuel fuel rest
    else if 0xC2 ≤ b && b ≤ 0xDF then
      match rest with
      | b2 :: r2 =>
        if isContByte b2 then
          Char.ofNat ((b - 0xC0) * 64 + (b2 - 0x80)) :: decodeUtf8IgnoreFuel fuel r2
        else decodeUtf8IgnoreFuel fuel rest
      | [] => []
    else if 0xE0 ≤ b && b ≤ 0xEF then
      match rest with
      | b2 :: b3 :: r3 =>
        if (if b = 0xE0 then 0xA0 ≤ b2 && b2 ≤ 0xBF
            else if b = 0xED then 0x80 ≤ b2 && b2 ≤ 0x9F
            else isContByte b2) && isContByte b3 then
          Char.ofNat ((b - 0xE0) * 4096 + (b2 - 0x80) * 64 + (b3 - 0x80))
            :: decodeUtf8IgnoreFuel fuel r3
        else decodeUtf8IgnoreFuel fuel rest
      | _ => decodeUtf8IgnoreFuel fuel rest
    else if 0xF0 ≤ b && b ≤ 0xF4 then
      match rest with
      | b2 :: b3 :: b4 :: r4 =>
        if (if b = 0xF0 then 0x90 ≤ b2 && b2 ≤ 0xBF
            else if b = 0xF4 then 0x80 ≤ b2 && b2 ≤ 0x8F
            else isContByte b2) && isContByte b3 && isContByte b4 then
          Char.ofNat ((b - 0xF0) * 262144 + (b2 - 0x80) * 4096 + (b3 - 0x80) * 64 + (b4 - 0x80))
            :: decodeUtf8IgnoreFuel fuel r4
        else decodeUtf8IgnoreFuel fuel rest
      | _ => decodeUtf8IgnoreFuel fuel rest
    else decodeUtf8IgnoreFuel fuel rest

def decodeUtf8Ignore (content : List Nat) : List Char :=
  decodeUtf8IgnoreFuel content.length content

/-- Strict UTF-8 validity, the success condition of `content.decode('utf-8')`. -/
def utf8ValidFuel : Nat → List Nat → Bool
  | 0, l => l = []
  | _, [] => true
  | fuel + 1, b :: rest =>
    if b < 0x80 then utf8ValidFuel fuel rest
    else if 0xC2 ≤ b && b ≤ 0xDF then
      match rest with
      | b2 :: r2 => isContByte b2 && utf8ValidFuel fuel r2
      | [] => false
    else if 0xE0 ≤ b && b ≤ 0xEF then
      match rest with
      | b2 :: b3 :: r3 =>
        (if b = 0xE0 then 0xA0 ≤ b2 && b2 ≤ 0xBF
         else if b = 0xED then 0x80 ≤ b2 && b2 ≤ 0x9F
         else isContByte b2) && isContByte b3 && utf8ValidFuel fuel r3
      | _ => false
    else if 0xF0 ≤ b && b ≤ 0xF4 then
      match rest with
      | b2 :: b3 :: b4 :: r4 =>
        (if b = 0xF0 then 0x90 ≤ b2 && b2 ≤ 0xBF
         else if b = 0xF4 then 0x80 ≤ b2 && b2 ≤ 0x8F
         else isContByte b2) && isContByte b3 && isContByte b4 && utf8ValidFuel fuel r4
      | _ => false
    else false

def utf8Valid (content : List Nat) : Bool :=
  utf8ValidFuel content.length content

/-- Python whitespace for `str.strip()` (ASCII portion). -/
def isPySpace (c : Char) : Bool :=
  c = ' ' || c = '\t' || c = '\n' || c = '\r' || c = Char.ofNat 11 || c = Char.ofNat 12

def stripL (s : List Char) : List Char :=
  ((s.dropWhile isPySpace).reverse.dropWhile isPySpace).reverse

def cssIndicators : List (List Char) :=
  [pstr "\x7b", pstr "\x7d", pstr ":", pstr ";", pstr "@media", pstr "@import",
   pstr "@font-face", pstr "px", pstr "em", pstr "%"]

def jsIndicators : List (List Char) :=
  [pstr "function", pstr "var ", pstr "let ", pstr "const ", pstr "=>",
   pstr "window.", pstr "document.", pstr "console."]

/-- `_validate_text_content` (lines 401-438). -/
def validateTextContent (content : List Nat) (expected : List Char) : Bool :=
  let textLower := stripL (lowerStr ((decodeUtf8Ignore content).take 1000))
  if expected = pstr "css" then cssIndicators.any (fun i => containsL i textLower)
  else if expected = pstr "javascript" then jsIndicators.any (fun i => containsL i textLower)
  else if expected = pstr "text" then utf8Valid content
  else false

/-- `_validate_content_type` (lines 269-302): empty content is rejected
outright; then the three checks run inside a permissive-on-error handler
whose only reachable exception source is the magic-byte EOT probe. -/
def validateContentTypeM (content : List Nat) (expected hdr : List Char) : Bool :=
  if content = [] then false
  else
    match validateByMagicBytes content expected with
    | .error _ => true
    | .ok b =>
      b || validateByHeaderM hdr expected
        || ((expected = pstr "css" || expected = pstr "javascript" || expected = pstr "text")
            && validateTextContent content expected)

end Scraper

namespace Scraper

/-! ### Asset cache (`self.asset_cache`, `_cache_downloaded_asset`,
`_get_local_asset_path`; lines 115-124, 957-995)

The cache is a Python dict keyed by canonical URL; it is modelled as an
insertion-ordered association list with in-place overwrite, which is
exactly dict assignment semantics. -/

def dictGet? (k : List Char) : List (List Char × List Char) → Option (List Char)
  | [] => none
  | e :: t => if e.1 = k then some e.2 else dictGet? k t

def dictSet (k v : List Char) : List (List Char × List Char) → List (List Char × List Char)
  | [] => [(k, v)]
  | e :: t => if e.1 = k then (k, v) :: t else e :: dictSet k v t

/-- `_cache_downloaded_asset` (lines 957-969): strip the URL and, when
nonempty, assign `asset_cache[url] = local_path`. -/
def cacheDownloadedAsset (cache : List (List Char × List Char)) (originalUrl localPath : List Char) :
    List (List Char × List Char) :=
  let u := stripL originalUrl
  if u = [] then cache else dictSet u localPath cache

/-! ### Fetch executor: `_download_asset_async` (1077-1179) and
`_download_asset` (1254-1411)

The network is a parameter: one `NetResponse` per GET.  `clientError`
covers `aiohttp.ClientError` / `requests` request exceptions,
`timeoutError` the timeout exceptions, `otherError` any other exception
inside the handler.  `FetchState` carries the shared mutable state: the
asset cache, the `_download_failures` counter, the set of files present in
the assets directory, and a log of the URLs actually fetched over the
network (one entry per GET issued). -/

inductive NetResponse where
  | ok (status : Nat) (contentType : List Char) (body : List Nat)
  | clientError
  | timeoutError
  | otherError
deriving DecidableEq, Repr

structure FetchState where
  cache : List (List Char × List Char)
  failures : Nat
  files : List (List Char)
  fetchLog : List (List Char)
deriving DecidableEq, Repr

/-- `_record_download_failure` (lines 2016-2021). -/
def recordFailure (st : FetchState) : FetchState :=
  ⟨st.cache, st.failures + 1, st.files, st.fetchLog⟩

/-- `os.path.splitext`: split off the extension at the last dot, except
when every character before that dot is itself a dot. -/
def splitExtM (name : List Char) : List Char × List Char :=
  match splitLast '.' name with
  | none => (name, [])
  | some (pre, post) =>
    if pre.all (fun c => c = '.') then (name, []) else (pre, '.' :: post)

/-- Collision loop of the download functions: `while local_path.exists():
filename = f"{base}_{counter}{ext}"; counter += 1`.  Fuel
`files.length + 1` suffices because the candidate names are pairwise
distinct. -/
def freshNameFuel (files : List (List Char)) (base ext : List Char) : Nat → Nat → List Char
  | 0, _ => base ++ ext
  | fuel + 1, counter =>
    let cand := base ++ '_' :: (pstr (toString counter)) ++ ext
    if files.contains cand then freshNameFuel files base ext fuel (counter + 1) else cand

def freshName (files : List (List Char)) (filename : List Char) : List Char :=
  if files.contains filename then
    let se := splitExtM filename
    freshNameFuel files se.1 se.2 (files.length + 1) 1
  else filename

/-- `_download_asset_async` (lines 1077-1179).  `gen` abstracts
`_generate_unique_filename` (an MD5 of host+path+query, outside this
model); `pathPre` is `_get_asset_path_prefix()`.  Returns the local path on
success, `none` on failure, together with the updated shared state. -/
def downloadAssetAsync (gen : List Char → List Char) (pathPre : List Char)
    (resp : NetResponse) (assetUrl baseUrl : List Char) (st : FetchState) :
    Option (List Char) × FetchState :=
  let full := normalizeUrl assetUrl (some baseUrl)
  match dictGet? full st.cache with
  | some cached => (some cached, st)
  | none =>
    let filename := freshName st.files (gen full)
    let st1 : FetchState := ⟨st.cache, st.failures, st.files, st.fetchLog ++ [full]⟩
    match resp with
    | .clientError => (none, recordFailure st1)
    | .timeoutError => (none, recordFailure st1)
    | .otherError => (none, recordFailure st1)
    | .ok status hdr body =>
      if status = 403 ∨ status = 404 ∨ status = 429 then (none, recordFailure st1)
      else if 400 ≤ status then (none, recordFailure st1)
      else
        match getExpectedContentTypeE full with
        | .error _ => (none, recordFailure st1)
        | .ok expected =>
          if validateContentTypeM body expected hdr then
            let rel := pathPre ++ filename
            (some rel,
             ⟨cacheDownloadedAsset st.cache full rel, st1.failures,
              st.files ++ [filename], st1.fetchLog⟩)
          else (none, recordFailure st1)

/-- `_download_asset` (lines 1254-1411), the sequential variant.
`extGuess` abstracts `mimetypes.guess_extension`; `headCT` is the
content-type obtained by the optional HEAD probe (`none` models the
`except` branch that keeps the filename unchanged). -/
def downloadAssetSeq (gen : List Char → List Char) (extGuess : List Char → Option (List Char))
    (pathPre : List Char) (headCT : Option (List Char)) (resp : NetResponse)
    (assetUrl baseUrl : List Char) (st : FetchState) :
    Option (List Char) × FetchState :=
  let full := normalizeUrl assetUrl (some baseUrl)
  match dictGet? full st.cache with
  | some cached => (some cached, st)
  | none =>
    let f0 := gen full
    let f1 :=
      if f0.contains '.' then f0
      else
        match headCT with
        | none => f0
        | some ct =>
          match extGuess ct with
          | some e => f0 ++ e
          | none => f0
    let filename := freshName st.files f1
    let st1 : FetchState := ⟨st.cache, st.failures, st.files, st.fetchLog ++ [full]⟩
    match resp with
    | .clientError => (none, recordFailure st1)
    | .timeoutError => (none, recordFailure st1)
    | .otherError => (none, recordFailure st1)
    | .ok status hdr body =>
      if status = 403 ∨ status = 404 ∨ status = 429 then (none, recordFailure st1)
      else if 400 ≤ status then (none, recordFailure st1)
      else
        match getExpectedContentTypeE full with
        | .error _ => (none, recordFailure st1)
        | .ok expected =>
          if validateContentTypeM body expected hdr then
            let rel := pathPre ++ filename
            (some rel,
             ⟨cacheDownloadedAsset st.cache full rel, st1.failures,
              st.files ++ [filename], st1.fetchLog⟩)
          else (none, recordFailure st1)

/-- `_download_assets_parallel` (lines 1181-1252), serialised: the
semaphore-bounded tasks mutate the shared dictionaries through one event
loop, and the model runs them in submission order.  The trailing loop
re-records one failure per failed download (lines 1246-1248). -/
def runBatch (gen : List Char → List Char) (pathPre : List Char)
    (resp : List Char → NetResponse) (urls : List (List Char)) (baseUrl : List Char)
    (st : FetchState) : List (List Char × List Char) × FetchState :=
  let downloadable := urls.filter
    (fun u => u ≠ [] && !(startsWithL (pstr "data:") u || startsWithL (pstr "javascript:") u
      || startsWithL (pstr "#") u))
  if downloadable = [] then ([], st)
  else
    let result := downloadable.foldl
      (fun acc u =>
        let r := downloadAssetAsync gen pathPre (resp u) u baseUrl acc.2
        match r.1 with
        | some p => (acc.1 ++ [(u, p)], r.2)
        | none => (acc.1, r.2))
      ([], st)
    let failed := downloadable.length - result.1.length
    (result.1, ⟨result.2.cache, result.2.failures + failed, result.2.files, result.2.fetchLog⟩)

end Scraper

namespace Scraper

/-! ### Collection: `_collect_all_assets` (lines 1550-1666)

The DOM is abstracted to its observable traversal: `htmlRefs` is the
flattened sequence of `(element id, attribute, raw url)` produced by
iterating the `url_attributes` table over `soup.find_all`; `cssLinks` is
the sequence of stylesheet links `(element id, href, fetched content)`,
where the content is `none` when the synchronous collection-time GET of the
stylesheet failed.  `extract` abstracts the `url(...)` regular-expression
scan of fetched stylesheet text. -/

structure AssetInfo where
  typ : List Char
  originalUrl : List Char
  elementRefs : List (Nat × List Char × List Char)
  cssRefs : List (List Char × List Char)
  cssContent : Option (Option (List Char))
deriving DecidableEq, Repr

def dictMemA (k : List Char) (d : List (List Char × AssetInfo)) : Bool :=
  d.any (fun e => e.1 = k)

def dictUpdateA (k : List Char) (f : AssetInfo → AssetInfo) :
    List (List Char × AssetInfo) → List (List Char × AssetInfo)
  | [] => []
  | e :: t => if e.1 = k then (e.1, f e.2) :: t else e :: dictUpdateA k f t

def skipRawUrl (u : List Char) : Bool :=
  startsWithL (pstr "data:") u || startsWithL (pstr "javascript:") u || startsWithL (pstr "#") u

/-- `_collect_all_assets`: one insertion-ordered dictionary keyed by the
normalized URL; entries are created only when the key is absent. -/
def collectAllAssets (extract : List Char → List (List Char))
    (htmlRefs : List (Nat × List Char × List Char))
    (cssLinks : List (Nat × List Char × Option (List Char)))
    (base : List Char) : List (List Char × AssetInfo) :=
  let step1 := htmlRefs.foldl
    (fun d r =>
      let u := r.2.2
      if u ≠ [] && !skipRawUrl u then
        let n := normalizeUrl u (some base)
        let d := if dictMemA n d then d
          else d ++ [(n, ⟨pstr "html_asset", u, [], [], none⟩)]
        dictUpdateA n
          (fun i => ⟨i.typ, i.originalUrl, i.elementRefs ++ [r], i.cssRefs, i.cssContent⟩) d
      else d)
    []
  cssLinks.foldl
    (fun d l =>
      let href := l.2.1
      if href ≠ [] then
        let cssUrl := normalizeUrl href (some base)
        let d := if dictMemA cssUrl d then d
          else d ++ [(cssUrl, ⟨pstr "css_file", href, [(l.1, pstr "href", href)], [], none⟩)]
        match l.2.2 with
        | some content =>
          let d := dictUpdateA cssUrl
            (fun i => ⟨i.typ, i.originalUrl, i.elementRefs, i.cssRefs, some (some content)⟩) d
          (extract content).foldl
            (fun d cu =>
              if !(startsWithL (pstr "data:") cu || startsWithL (pstr "#") cu) then
                let ncu := normalizeUrl cu (some cssUrl)
                let d := if dictMemA ncu d then d
                  else d ++ [(ncu, ⟨pstr "css_asset", cu, [], [], none⟩)]
                dictUpdateA ncu
                  (fun i => ⟨i.typ, i.originalUrl, i.elementRefs, i.cssRefs ++ [(cssUrl, cu)],
                    i.cssContent⟩) d
              else d)
            d
        | none =>
          if dictMemA cssUrl d then
            dictUpdateA cssUrl
              (fun i => ⟨i.typ, i.originalUrl, i.elementRefs, i.cssRefs, some none⟩) d
          else d
      else d)
    step1

/-- `_download_all_assets_unified` (lines 1668-1701): filter the
non-downloadable keys and hand the rest to the parallel downloader with an
empty base URL. -/
def downloadAllAssetsUnified (gen : List Char → List Char) (pathPre : List Char)
    (resp : List Char → NetResponse) (allAssets : List (List Char × AssetInfo))
    (st : FetchState) : List (List Char × List Char) × FetchState :=
  let downloadableAssets := allAssets.filter (fun e => !skipRawUrl e.1)
  if downloadableAssets = [] then ([], st)
  else runBatch gen pathPre resp (downloadableAssets.map (fun e => e.1)) [] st

/-- `_update_html_with_unified_assets` (lines 1703-1748), restricted to its
observable product: the original-URL → local-path mapping that element
rewriting produces (the DOM mutation and processed-CSS file writes carry
the same association). -/
def updateHtmlWithUnifiedAssets (allAssets : List (List Char × AssetInfo))
    (downloaded : List (List Char × List Char)) : List (List Char × List Char) :=
  allAssets.foldl
    (fun m e =>
      match dictGet? e.1 downloaded with
      | some lp => e.2.elementRefs.foldl (fun m r => dictSet r.2.2 lp m) m
      | none => m)
    []

/-! ### Attempt controller: `_download_assets_with_retry` (lines 1930-2010),
parallel branch -/

structure AttemptOutcome where
  success : Bool
  manifestWritten : Bool
  manifest : List (List Char × List Char)
  htmlRewritten : Bool
  collectedCount : Nat
  downloadedCount : Nat
deriving DecidableEq, Repr

/-- One attempt of `_download_assets_with_retry` with
`parallel_downloads=True`: reset the failure counter, collect, download
all assets in one unified batch, rewrite the document only at the 80%
success threshold, raise (attempt failed) if any failure was recorded, and
otherwise persist `assets.json` exactly when at least one asset mapping
exists.  `len(downloaded) >= len(all_assets) * 0.8` is stated over the
rationals; the double-precision product `n * 0.8` rounds to `0.8 * n`
exactly whenever the latter is an integer, so the two readings agree. -/
def runAttempt (gen : List Char → List Char) (pathPre : List Char)
    (extract : List Char → List (List Char)) (resp : List Char → NetResponse)
    (htmlRefs : List (Nat × List Char × List Char))
    (cssLinks : List (Nat × List Char × Option (List Char)))
    (base : List Char) (st0 : FetchState) : AttemptOutcome × FetchState :=
  let st : FetchState := ⟨st0.cache, 0, st0.files, st0.fetchLog⟩
  let allAssets := collectAllAssets extract htmlRefs cssLinks base
  let du := downloadAllAssetsUnified gen pathPre resp allAssets st
  let rewrite := 10 * du.1.length ≥ 8 * allAssets.length
  let downloaded := if rewrite then updateHtmlWithUnifiedAssets allAssets du.1 else du.1
  if du.2.failures > 0 then
    (⟨false, false, [], rewrite, allAssets.length, du.1.length⟩, du.2)
  else if downloaded.length > 0 then
    (⟨true, true, downloaded, rewrite, allAssets.length, du.1.length⟩, du.2)
  else
    (⟨true, false, [], rewrite, allAssets.length, du.1.length⟩, du.2)

/-- The retry loop of `_download_assets_with_retry`: one `NetResponse`
oracle per attempt, exponential backoff elided, state (including the asset
cache) carried across attempts; a failed attempt retries, a clean attempt
returns immediately. -/
def downloadAssetsWithRetryM (gen : List Char → List Char) (pathPre : List Char)
    (extract : List Char → List (List Char)) (resps : List (List Char → NetResponse))
    (htmlRefs : List (Nat × List Char × List Char))
    (cssLinks : List (Nat × List Char × Option (List Char)))
    (base : List Char) (st : FetchState) : Bool × Bool × FetchState :=
  match resps with
  | [] => (false, false, st)
  | r :: rest =>
    let o := runAttempt gen pathPre extract r htmlRefs cssLinks base st
    if o.1.success then (true, o.1.manifestWritten, o.2)
    else downloadAssetsWithRetryM gen pathPre extract rest htmlRefs cssLinks base o.2

end Scraper

namespace Scraper

/-- Absence of any decodable percent escape; characterises the fixed
points of `unquote`. -/
def noEsc : List Char → Bool
  | [] => true
  | '%' :: h1 :: h2 :: rest =>
    if isHexDigitC h1 && isHexDigitC h2 then false else noEsc (h1 :: h2 :: rest)
  | _ :: rest => noEsc rest

end Scraper

namespace Scraper

/-! ## Claim theorems -/

/-- C9.  The content validator rejects empty content unconditionally: for
every expected category and every content-type header, validating a
zero-length byte string returns reject, before any signature, header or
structural check (and before the permissive-on-error handler) can apply. -/
theorem validateContentType_rejects_empty :
    ∀ expected hdr : List Char, validateContentTypeM [] expected hdr = false :=
  fun _ _ => rfl

/-- C3, counterexample.  The claim "the validator accepts iff at least one
of the three checks succeeds" fails on empty content: with expected
category `image` and header `image/png` the header check succeeds, yet the
validator rejects (the emptiness guard fires first). -/
theorem validateContentType_iff_counterexample :
    validateByHeaderM (pstr "image/png") (pstr "image") = true
      ∧ validateContentTypeM [] (pstr "image") (pstr "image/png") = false := by
  exact ⟨by decide, rfl⟩

/-- C3, amended.  For nonempty content the validator accepts iff the
magic-byte check errs (permissive-on-error) or succeeds, or the header
check succeeds, or the category is text-like and the structural check
succeeds; empty content is always rejected. -/
theorem validateContentType_amended (content : List Nat) (expected hdr : List Char)
    (h : content ≠ []) :
    validateContentTypeM content expected hdr =
      (match validateByMagicBytes content expected with
       | .error _ => true
       | .ok b =>
         b || validateByHeaderM hdr expected
           || ((expected = pstr "css" || expected = pstr "javascript" || expected = pstr "text")
               && validateTextContent content expected)) := by
  unfold validateContentTypeM
  rw [if_neg h]

/-- Witness for `validateContentType_amended` at a concrete JPEG prefix. -/
theorem validateContentType_amended_witness :
    validateContentTypeM [0xFF, 0xD8, 0x00, 0x10] (pstr "image") [] =
      (match validateByMagicBytes [0xFF, 0xD8, 0x00, 0x10] (pstr "image") with
       | .error _ => true
       | .ok b =>
         b || validateByHeaderM [] (pstr "image")
           || ((pstr "image" = pstr "css" || pstr "image" = pstr "javascript"
                || pstr "image" = pstr "text")
               && validateTextContent [0xFF, 0xD8, 0x00, 0x10] (pstr "image"))) :=
  validateContentType_amended [0xFF, 0xD8, 0x00, 0x10] (pstr "image") [] (by decide)

/-- C4.  Multi-level percent-encoding collapses to one level: the
references `foo%2520bar.png` and `foo%20bar.png`, resolved against the
same base, normalize to the identical canonical URL. -/
theorem normalizeUrl_collapses_double_encoding :
    normalizeUrl (pstr "foo%2520bar.png") (some (pstr "http://example.com/"))
        = normalizeUrl (pstr "foo%20bar.png") (some (pstr "http://example.com/"))
      ∧ normalizeUrl (pstr "foo%2520bar.png") (some (pstr "http://example.com/"))
        = pstr "http://example.com/foo%20bar.png" := by
  exact ⟨rfl, rfl⟩

/-- Keys reached by `dictSet` are unchanged when the key is already bound. -/
theorem dictSet_keys_of_mem (k v : List Char) :
    ∀ d : List (List Char × List Char), k ∈ d.map Prod.fst →
      (dictSet k v d).map Prod.fst = d.map Prod.fst := by
  intro d hm
  induction d with
  | nil => simp at hm
  | cons e t ih =>
    by_cases he : e.1 = k
    · simp [dictSet, he]
    · simp only [List.map_cons, List.mem_cons] at hm
      rcases hm with hm | hm
      · exact absurd hm.symm he
      · simp [dictSet, he, ih hm]

theorem dictGet_dictSet_self (k v : List Char) :
    ∀ d : List (List Char × List Char), dictGet? k (dictSet k v d) = some v := by
  intro d
  induction d with
  | nil => simp [dictSet, dictGet?]
  | cons e t ih =>
    by_cases he : e.1 = k
    · simp [dictSet, he, dictGet?]
    · simp [dictSet, he, dictGet?, ih]

theorem dictSet_dictSet_same (k v1 v2 : List Char) :
    ∀ d : List (List Char × List Char), dictSet k v2 (dictSet k v1 d) = dictSet k v2 d := by
  intro d
  induction d with
  | nil => simp [dictSet]
  | cons e t ih =>
    by_cases he : e.1 = k
    · simp [dictSet, he]
    · simp [dictSet, he, ih]

theorem dictSet_mem_keys (k v : List Char) :
    ∀ d : List (List Char × List Char), k ∈ (dictSet k v d).map Prod.fst := by
  intro d
  induction d with
  | nil => simp [dictSet]
  | cons e t ih =>
    by_cases he : e.1 = k
    · simp [dictSet, he]
    · simp [dictSet, he, ih]

/-- C7, counterexample.  Cache commit is not idempotent: committing the
same canonical URL twice with different local paths replaces the entry, so
the cache yields the most recent path, not the originally committed one. -/
theorem cacheCommit_not_idempotent :
    dictGet? (pstr "http://e/a.png")
        (cacheDownloadedAsset
          (cacheDownloadedAsset [] (pstr "http://e/a.png") (pstr "assets/a.png"))
          (pstr "http://e/a.png") (pstr "assets/b.png"))
      = some (pstr "assets/b.png")
    ∧ pstr "assets/b.png" ≠ pstr "assets/a.png" := by
  exact ⟨rfl, by decide⟩

/-- C7, amended.  Cache commit is last-write-wins rather than idempotent:
committing the same canonical URL twice leaves a single entry (no key is
added by the second commit) holding the most recently committed local
path, and re-committing with the same path is a no-op. -/
theorem cacheCommit_last_write_wins :
    (∀ cache u p1 p2, stripL u ≠ [] →
        dictGet? (stripL u)
            (cacheDownloadedAsset (cacheDownloadedAsset cache u p1) u p2) = some p2)
      ∧ (∀ cache u p1 p2, stripL u ≠ [] →
        ((cacheDownloadedAsset (cacheDownloadedAsset cache u p1) u p2).map Prod.fst)
          = ((cacheDownloadedAsset cache u p1).map Prod.fst))
      ∧ (∀ cache u p,
        cacheDownloadedAsset (cacheDownloadedAsset cache u p) u p
          = cacheDownloadedAsset cache u p) := by
  refine ⟨?_, ?_, ?_⟩
  · intro cache u p1 p2 hu
    simp only [cacheDownloadedAsset, if_neg hu]
    exact dictGet_dictSet_self _ _ _
  · intro cache u p1 p2 hu
    simp only [cacheDownloadedAsset, if_neg hu]
    exact dictSet_keys_of_mem _ _ _ (dictSet_mem_keys _ _ _)
  · intro cache u p
    by_cases hu : stripL u = []
    · simp [cacheDownloadedAsset, hu]
    · simp only [cacheDownloadedAsset, if_neg hu]
      exact dictSet_dictSet_same _ _ _ _

/-- Witness for `cacheCommit_last_write_wins` at one concrete pair of paths. -/
theorem cacheCommit_last_write_wins_witness :
    dictGet? (stripL (pstr "http://e/a.png"))
        (cacheDownloadedAsset
          (cacheDownloadedAsset [] (pstr "http://e/a.png") (pstr "assets/a.png"))
          (pstr "http://e/a.png") (pstr "assets/b.png"))
      = some (pstr "assets/b.png") :=
  cacheCommit_last_write_wins.1 [] (pstr "http://e/a.png") (pstr "assets/a.png")
    (pstr "assets/b.png") (by decide)

end Scraper

namespace Scraper

/-- C5.  The URL normalizer is total (it is a Lean function) and never
raises: empty, `data:`, `javascript:` and fragment-only references come
back unchanged; a non-absolute reference with no usable base comes back
unchanged; and each of the two failure points inside the handler — a
`ValueError` out of `urljoin`, or out of `urlparse` on an absolute
reference — returns the original string unchanged. -/
theorem normalizeUrl_never_raises :
    (∀ u b, passThroughUrl u = true → normalizeUrl u b = u)
      ∧ (∀ u, httpPrefixed u = false →
          normalizeUrl u none = u ∧ normalizeUrl u (some []) = u)
      ∧ (∀ u b, passThroughUrl u = false → httpPrefixed u = false → b ≠ [] →
          urljoinE b u = .error () → normalizeUrl u (some b) = u)
      ∧ (∀ u b, passThroughUrl u = false → httpPrefixed u = true →
          urlparseE [] u = .error () → normalizeUrl u b = u) := by
  refine ⟨?_, ?_, ?_, ?_⟩
  · intro u b h
    simp [normalizeUrl, normCore, h]
  · intro u h
    constructor
    · by_cases hp : passThroughUrl u = true
      · simp [normalizeUrl, normCore, hp]
      · simp [normalizeUrl, normCore, hp, h]
    · by_cases hp : passThroughUrl u = true
      · simp [normalizeUrl, normCore, hp]
      · simp [normalizeUrl, normCore, hp, h]
  · intro u b hp hh hb hj
    simp [normalizeUrl, normCore, hp, hh, hb, hj]
  · intro u b hp hh hparse
    simp [normalizeUrl, normCore, hp, hh, hparse]

/-- Witness for `normalizeUrl_never_raises`: a `data:` reference passes
through, and an absolute URL whose netloc has an unbalanced bracket (a
`ValueError` inside `urlparse`) comes back unchanged. -/
theorem normalizeUrl_never_raises_witness :
    normalizeUrl (pstr "data:abc") none = pstr "data:abc"
      ∧ normalizeUrl (pstr "http://[::1/x") none = pstr "http://[::1/x" :=
  ⟨normalizeUrl_never_raises.1 (pstr "data:abc") none (by decide),
   normalizeUrl_never_raises.2.2.2 (pstr "http://[::1/x") none (by decide) (by decide)
     rfl⟩

/-- C8, counterexample.  A capture whose markup contains zero external
references returns success with zero network fetches, but no manifest is
written for it: `assets.json` is produced only when at least one asset
mapping exists, so the claimed empty manifest never appears. -/
theorem emptyCapture_counterexample :
    (runAttempt (fun _ => []) [] (fun _ => []) (fun _ => NetResponse.otherError)
        [] [] [] (FetchState.mk [] 0 [] [])).1.success = true
      ∧ (runAttempt (fun _ => []) [] (fun _ => []) (fun _ => NetResponse.otherError)
        [] [] [] (FetchState.mk [] 0 [] [])).2.fetchLog = []
      ∧ (runAttempt (fun _ => []) [] (fun _ => []) (fun _ => NetResponse.otherError)
        [] [] [] (FetchState.mk [] 0 [] [])).1.manifestWritten = false := by
  exact ⟨rfl, rfl, rfl⟩

/-- C8, amended.  A capture with zero external references reaches
`Complete` (the attempt succeeds, and the retry wrapper returns success on
its first attempt) without any network fetch and without touching the
cache, but no manifest is written: the persisted mapping file is only
produced when at least one asset mapping exists. -/
theorem emptyCapture_complete_zero_fetches (gen : List Char → List Char)
    (pathPre : List Char) (extract : List Char → List (List Char))
    (resp : List Char → NetResponse) (base : List Char) (st0 : FetchState) :
    (runAttempt gen pathPre extract resp [] [] base st0).1.success = true
      ∧ (runAttempt gen pathPre extract resp [] [] base st0).1.manifestWritten = false
      ∧ (runAttempt gen pathPre extract resp [] [] base st0).2
          = FetchState.mk st0.cache 0 st0.files st0.fetchLog
      ∧ ∀ rest,
          (downloadAssetsWithRetryM gen pathPre extract (resp :: rest) [] [] base st0).1 = true
            ∧ (downloadAssetsWithRetryM gen pathPre extract (resp :: rest) [] [] base st0).2.1
                = false := by
  exact ⟨rfl, rfl, rfl, fun rest => ⟨rfl, rfl⟩⟩

/-- C10.  In parallel-download mode the document is rewritten to local
paths exactly when the number of unique assets resolved by the unified
download reaches 80% of the collected unique assets; below the threshold
the attempt leaves the original URLs in place. -/
theorem parallel_rewrite_threshold (gen : List Char → List Char) (pathPre : List Char)
    (extract : List Char → List (List Char)) (resp : List Char → NetResponse)
    (htmlRefs : List (Nat × List Char × List Char))
    (cssLinks : List (Nat × List Char × Option (List Char)))
    (base : List Char) (st0 : FetchState) :
    (runAttempt gen pathPre extract resp htmlRefs cssLinks base st0).1.htmlRewritten
      = decide (10 * (downloadAllAssetsUnified gen pathPre resp
            (collectAllAssets extract htmlRefs cssLinks base)
            (FetchState.mk st0.cache 0 st0.files st0.fetchLog)).1.length
          ≥ 8 * (collectAllAssets extract htmlRefs cssLinks base).length) := by
  unfold runAttempt
  dsimp only
  repeat' split
  all_goals rfl

/-- C6.  A fetch that receives HTTP 403, 404 or 429, or suffers a network
error, a timeout or a validator rejection, returns a failure result,
increments the attempt failure counter exactly once, writes no file,
commits no cache entry, and issues exactly one GET (no retry inside the
fetch layer).  Both download variants behave identically. -/
theorem downloadAsset_failure_no_commit :
    (∀ (gen : List Char → List Char) (pathPre : List Char) (resp : NetResponse)
        (assetUrl baseUrl : List Char) (st : FetchState),
      dictGet? (normalizeUrl assetUrl (some baseUrl)) st.cache = none →
      (resp = NetResponse.clientError ∨ resp = NetResponse.timeoutError ∨
        (∃ s hdr body, resp = NetResponse.ok s hdr body ∧
          (s = 403 ∨ s = 404 ∨ s = 429 ∨
            (s < 400 ∧ ∃ expected,
              getExpectedContentTypeE (normalizeUrl assetUrl (some baseUrl)) = .ok expected
                ∧ validateContentTypeM body expected hdr = false)))) →
      downloadAssetAsync gen pathPre resp assetUrl baseUrl st
        = (none, FetchState.mk st.cache (st.failures + 1) st.files
            (st.fetchLog ++ [normalizeUrl assetUrl (some baseUrl)])))
      ∧ (∀ (gen : List Char → List Char) (extGuess : List Char → Option (List Char))
          (pathPre : List Char) (headCT : Option (List Char)) (resp : NetResponse)
          (assetUrl baseUrl : List Char) (st : FetchState),
        dictGet? (normalizeUrl assetUrl (some baseUrl)) st.cache = none →
        (resp = NetResponse.clientError ∨ resp = NetResponse.timeoutError ∨
          (∃ s hdr body, resp = NetResponse.ok s hdr body ∧
            (s = 403 ∨ s = 404 ∨ s = 429 ∨
              (s < 400 ∧ ∃ expected,
                getExpectedContentTypeE (normalizeUrl assetUrl (some baseUrl)) = .ok expected
                  ∧ validateContentTypeM body expected hdr = false)))) →
        downloadAssetSeq gen extGuess pathPre headCT resp assetUrl baseUrl st
          = (none, FetchState.mk st.cache (st.failures + 1) st.files
              (st.fetchLog ++ [normalizeUrl assetUrl (some baseUrl)]))) := by
  constructor
  · intro gen pathPre resp assetUrl baseUrl st hc hfail
    unfold downloadAssetAsync
    dsimp only
    rw [hc]
    rcases hfail with h | h | ⟨s, hdr, body, hresp, hs⟩
    · subst h; rfl
    · subst h; rfl
    · subst hresp
      rcases hs with hs | hs | hs | ⟨hlt, expected, hexp, hval⟩
      · simp [hs, recordFailure]
      · simp [hs, recordFailure]
      · simp [hs, recordFailure]
      · have h403 : ¬(s = 403 ∨ s = 404 ∨ s = 429) := by omega
        have h400 : ¬(400 ≤ s) := by omega
        simp [if_neg h403, if_neg h400, hexp, hval, recordFailure]
  · intro gen extGuess pathPre headCT resp assetUrl baseUrl st hc hfail
    unfold downloadAssetSeq
    dsimp only
    rw [hc]
    rcases hfail with h | h | ⟨s, hdr, body, hresp, hs⟩
    · subst h; rfl
    · subst h; rfl
    · subst hresp
      rcases hs with hs | hs | hs | ⟨hlt, expected, hexp, hval⟩
      · simp [hs, recordFailure]
      · simp [hs, recordFailure]
      · simp [hs, recordFailure]
      · have h403 : ¬(s = 403 ∨ s = 404 ∨ s = 429) := by omega
        have h400 : ¬(400 ≤ s) := by omega
        simp [if_neg h403, if_neg h400, hexp, hval, recordFailure]

/-- Witness for `downloadAsset_failure_no_commit`: a concrete 404 on an
uncached URL, through both variants. -/
theorem downloadAsset_failure_no_commit_witness :
    downloadAssetAsync (fun _ => pstr "f.png") (pstr "assets/")
        (NetResponse.ok 404 [] [0]) (pstr "http://e/a.png") [] (FetchState.mk [] 5 [] [])
      = (none, FetchState.mk [] 6 [] [normalizeUrl (pstr "http://e/a.png") (some [])])
    ∧ downloadAssetSeq (fun _ => pstr "f.png") (fun _ => none) (pstr "assets/") none
        (NetResponse.ok 404 [] [0]) (pstr "http://e/a.png") [] (FetchState.mk [] 5 [] [])
      = (none, FetchState.mk [] 6 [] [normalizeUrl (pstr "http://e/a.png") (some [])]) :=
  ⟨downloadAsset_failure_no_commit.1 _ _ _ _ _ _ (by decide)
      (Or.inr (Or.inr ⟨404, [], [0], rfl, Or.inr (Or.inl rfl)⟩)),
   downloadAsset_failure_no_commit.2 _ _ _ _ _ _ _ _ (by decide)
      (Or.inr (Or.inr ⟨404, [], [0], rfl, Or.inr (Or.inl rfl)⟩))⟩

/-- C1, counterexample.  URL normalization is not idempotent: for the
Google-Fonts reference `http://fonts.googleapis.com/css?family%23` (no
base), one normalization yields `...css?family#` and a second one yields
`...css?family`. -/
theorem normalizeUrl_not_idempotent :
    normalizeUrl (normalizeUrl (pstr "http://fonts.googleapis.com/css?family%23") none) none
      ≠ normalizeUrl (pstr "http://fonts.googleapis.com/css?family%23") none := by
  decide

end Scraper

namespace Scraper

/-! ### Deduplication lemmas for C2 -/

theorem foldl_preserve {α β : Type} (P : α → Prop) (f : α → β → α)
    (h : ∀ a b, P a → P (f a b)) : ∀ (l : List β) (a : α), P a → P (l.foldl f a) := by
  intro l
  induction l with
  | nil => intro a ha; exact ha
  | cons x xs ih => intro a ha; exact ih (f a x) (h a x ha)

theorem dictUpdateA_keys (k : List Char) (f : AssetInfo → AssetInfo) :
    ∀ d, (dictUpdateA k f d).map Prod.fst = d.map Prod.fst := by
  intro d
  induction d with
  | nil => rfl
  | cons e t ih =>
    by_cases he : e.1 = k
    · simp [dictUpdateA, he]
    · simp [dictUpdateA, he, ih]

theorem dictMemA_false_not_mem (k : List Char) (d : List (List Char × AssetInfo))
    (h : dictMemA k d = false) : k ∉ d.map Prod.fst := by
  intro hm
  rcases List.mem_map.mp hm with ⟨e, he, hk⟩
  have : dictMemA k d = true := by
    simp only [dictMemA, List.any_eq_true]
    exact ⟨e, he, by simp [hk]⟩
  rw [this] at h
  cases h

theorem keysNodup_insertAbsent (k : List Char) (v : AssetInfo)
    (d : List (List Char × AssetInfo)) (h : (d.map Prod.fst).Nodup) :
    (((if dictMemA k d then d else d ++ [(k, v)])).map Prod.fst).Nodup := by
  by_cases hm : dictMemA k d
  · simpa [hm] using h
  · have hk := dictMemA_false_not_mem k d (by simpa using hm)
    rw [if_neg hm]
    simp only [List.map_append, List.map_cons, List.map_nil]
    rw [List.nodup_append]
    refine ⟨h, List.nodup_singleton _, ?_⟩
    intro a ha hb
    simp only [List.mem_singleton] at hb
    subst hb
    exact hk ha

theorem keysNodup_keyStep (k : List Char) (v : AssetInfo) (f : AssetInfo → AssetInfo)
    (d : List (List Char × AssetInfo)) (h : (d.map Prod.fst).Nodup) :
    ((dictUpdateA k f (if dictMemA k d then d else d ++ [(k, v)])).map Prod.fst).Nodup := by
  rw [dictUpdateA_keys]
  exact keysNodup_insertAbsent k v d h

/-- Every state of the `_collect_all_assets` dictionary has pairwise
distinct keys: entries are only ever created through insert-if-absent. -/
theorem collectAllAssets_keys_nodup (extract : List Char → List (List Char))
    (htmlRefs : List (Nat × List Char × List Char))
    (cssLinks : List (Nat × List Char × Option (List Char))) (base : List Char) :
    ((collectAllAssets extract htmlRefs cssLinks base).map Prod.fst).Nodup := by
  unfold collectAllAssets
  dsimp only
  apply foldl_preserve (fun (d : List (List Char × AssetInfo)) => (d.map Prod.fst).Nodup)
  · intro d l hP
    obtain ⟨lid, lhref, lcontent⟩ := l
    dsimp only
    by_cases hh : lhref ≠ []
    · rw [if_pos hh]
      set D := if dictMemA (normalizeUrl lhref (some base)) d then d
        else d ++ [(normalizeUrl lhref (some base),
          (⟨pstr "css_file", lhref, [(lid, pstr "href", lhref)], [], none⟩ : AssetInfo))] with hD
      have hP1 : (D.map Prod.fst).Nodup := keysNodup_insertAbsent _ _ d hP
      split
      · apply foldl_preserve (fun (d : List (List Char × AssetInfo)) => (d.map Prod.fst).Nodup)
        · intro d2 cu hP2
          by_cases hcu : (!(startsWithL (pstr "data:") cu || startsWithL (pstr "#") cu)) = true
          · rw [if_pos hcu]
            exact keysNodup_keyStep _ _ _ d2 hP2
          · rw [if_neg hcu]
            exact hP2
        · rw [dictUpdateA_keys]
          exact hP1
      · by_cases hm : dictMemA (normalizeUrl lhref (some base)) D = true
        · rw [if_pos hm, dictUpdateA_keys]
          exact hP1
        · rw [if_neg hm]
          exact hP1
    · rw [if_neg hh]
      exact hP
  · apply foldl_preserve (fun (d : List (List Char × AssetInfo)) => (d.map Prod.fst).Nodup)
    · intro d r hP
      by_cases hc : (decide (r.2.2 ≠ []) && !skipRawUrl r.2.2) = true
      · rw [if_pos hc]
        exact keysNodup_keyStep _ _ _ d hP
      · rw [if_neg hc]
        exact hP
    · exact List.nodup_nil

end Scraper

namespace Scraper

theorem dictGet_dictSet_ne (v k x : List Char) (hne : v ≠ k) :
    ∀ d, dictGet? v (dictSet k x d) = dictGet? v d := by
  intro d
  induction d with
  | nil =>
    simp only [dictSet, dictGet?]
    rw [if_neg (fun h => hne h.symm)]
  | cons e t ih =>
    by_cases he : e.1 = k
    · simp only [dictSet, if_pos he, dictGet?]
      rw [if_neg (fun h => hne h.symm), if_neg (fun h : e.1 = v => hne (h.symm.trans he))]
    · simp only [dictSet, if_neg he, dictGet?]
      by_cases hv : e.1 = v
      · rw [if_pos hv, if_pos hv]
      · rw [if_neg hv, if_neg hv, ih]

/-- An uncached download appends exactly one entry to the fetch log and
changes at most the binding of its own (stripped) canonical URL in the
cache, whatever the network outcome. -/
theorem downloadAssetAsync_uncached (gen : List Char → List Char) (pathPre : List Char)
    (resp : NetResponse) (assetUrl baseUrl : List Char) (st : FetchState)
    (hc : dictGet? (normalizeUrl assetUrl (some baseUrl)) st.cache = none) :
    (downloadAssetAsync gen pathPre resp assetUrl baseUrl st).2.fetchLog
        = st.fetchLog ++ [normalizeUrl assetUrl (some baseUrl)]
      ∧ ∀ v, v ≠ stripL (normalizeUrl assetUrl (some baseUrl)) →
          dictGet? v (downloadAssetAsync gen pathPre resp assetUrl baseUrl st).2.cache
            = dictGet? v st.cache := by
  unfold downloadAssetAsync
  dsimp only
  rw [hc]
  cases resp with
  | clientError => exact ⟨rfl, fun v hv => rfl⟩
  | timeoutError => exact ⟨rfl, fun v hv => rfl⟩
  | otherError => exact ⟨rfl, fun v hv => rfl⟩
  | ok status hdr body =>
    dsimp only
    by_cases h1 : status = 403 ∨ status = 404 ∨ status = 429
    · rw [if_pos h1]
      exact ⟨rfl, fun v hv => rfl⟩
    · rw [if_neg h1]
      by_cases h2 : 400 ≤ status
      · rw [if_pos h2]
        exact ⟨rfl, fun v hv => rfl⟩
      · rw [if_neg h2]
        cases hexp : getExpectedContentTypeE (normalizeUrl assetUrl (some baseUrl)) with
        | error e => exact ⟨rfl, fun v hv => rfl⟩
        | ok expected =>
          dsimp only
          by_cases hval : validateContentTypeM body expected hdr = true
          · rw [if_pos hval]
            refine ⟨rfl, fun v hv => ?_⟩
            show dictGet? v (cacheDownloadedAsset st.cache _ _) = dictGet? v st.cache
            unfold cacheDownloadedAsset
            by_cases hs : stripL (normalizeUrl assetUrl (some baseUrl)) = []
            · rw [if_pos hs]
            · rw [if_neg hs]
              exact dictGet_dictSet_ne v _ _ hv _
          · rw [if_neg hval]
            exact ⟨rfl, fun v hv => rfl⟩

/-- Sequential model of the semaphore-bounded download loop: over pairwise
distinct, renormalization-stable, initially uncached URLs, each URL is
fetched over the network exactly once, in order. -/
theorem runFold_fetchLog (gen : List Char → List Char) (pathPre : List Char)
    (resp : List Char → NetResponse) (b : List Char) :
    ∀ (urls : List (List Char)) (ac : List (List Char × List Char) × FetchState),
      (∀ u ∈ urls, normalizeUrl u (some b) = u ∧ stripL u = u ∧ dictGet? u ac.2.cache = none) →
      urls.Nodup →
      (urls.foldl
        (fun acc u =>
          let r := downloadAssetAsync gen pathPre (resp u) u b acc.2
          match r.1 with
          | some p => (acc.1 ++ [(u, p)], r.2)
          | none => (acc.1, r.2))
        ac).2.fetchLog = ac.2.fetchLog ++ urls := by
  intro urls
  induction urls with
  | nil => intro ac hys hnd; simp
  | cons u rest ih =>
    intro ac hys hnd
    have hu := hys u (List.mem_cons_self u rest)
    have hc : dictGet? (normalizeUrl u (some b)) ac.2.cache = none := by
      rw [hu.1]; exact hu.2.2
    have hdl := downloadAssetAsync_uncached gen pathPre (resp u) u b ac.2 hc
    rw [List.foldl_cons]
    refine Eq.trans (ih _ ?_ (List.nodup_cons.mp hnd).2) ?_
    · intro v hv
      have hvs := hys v (List.mem_cons_of_mem u hv)
      refine ⟨hvs.1, hvs.2.1, ?_⟩
      have hvne : v ≠ stripL (normalizeUrl u (some b)) := by
        rw [hu.1, hu.2.1]
        exact fun h => (List.nodup_cons.mp hnd).1 (h ▸ hv)
      dsimp only
      cases hr : (downloadAssetAsync gen pathPre (resp u) u b ac.2).1 <;> dsimp only
      · rw [hdl.2 v hvne]
        exact hvs.2.2
      · rw [hdl.2 v hvne]
        exact hvs.2.2
    · dsimp only
      cases hr : (downloadAssetAsync gen pathPre (resp u) u b ac.2).1 <;> dsimp only
      · rw [hdl.1, hu.1]
        simp
      · rw [hdl.1, hu.1]
        simp

end Scraper

namespace Scraper

/-- C2.  Deduplication within a batch: (1) the unified asset collection is
keyed by normalized URL and holds one entry per canonical URL (its keys
are pairwise distinct); (2) a fetch first consults the asset cache and
short-circuits with the cached local path, with no state change and no
network GET, when the canonical URL is already present; (3) over the
distinct, renormalization-stable and initially uncached keys of a batch,
the downloader issues exactly one network GET per canonical URL: the fetch
log grows by exactly the list of downloadable keys. -/
theorem download_dedup :
    (∀ (extract : List Char → List (List Char)) (htmlRefs : List (Nat × List Char × List Char))
        (cssLinks : List (Nat × List Char × Option (List Char))) (base : List Char),
      ((collectAllAssets extract htmlRefs cssLinks base).map Prod.fst).Nodup)
      ∧ (∀ (gen : List Char → List Char) (pathPre : List Char) (resp : NetResponse)
          (assetUrl baseUrl cached : List Char) (st : FetchState),
        dictGet? (normalizeUrl assetUrl (some baseUrl)) st.cache = some cached →
        downloadAssetAsync gen pathPre resp assetUrl baseUrl st = (some cached, st))
      ∧ (∀ (gen : List Char → List Char) (pathPre : List Char)
          (resp : List Char → NetResponse) (urls : List (List Char))
          (baseUrl : List Char) (st : FetchState),
        (∀ u ∈ urls.filter
            (fun u => u ≠ [] && !(startsWithL (pstr "data:") u
              || startsWithL (pstr "javascript:") u || startsWithL (pstr "#") u)),
          normalizeUrl u (some baseUrl) = u ∧ stripL u = u ∧ dictGet? u st.cache = none) →
        (urls.filter
            (fun u => u ≠ [] && !(startsWithL (pstr "data:") u
              || startsWithL (pstr "javascript:") u || startsWithL (pstr "#") u))).Nodup →
        (runBatch gen pathPre resp urls baseUrl st).2.fetchLog
          = st.fetchLog ++ urls.filter
              (fun u => u ≠ [] && !(startsWithL (pstr "data:") u
                || startsWithL (pstr "javascript:") u || startsWithL (pstr "#") u))) := by
  refine ⟨collectAllAssets_keys_nodup, ?_, ?_⟩
  · intro gen pathPre resp assetUrl baseUrl cached st h
    unfold downloadAssetAsync
    dsimp only
    rw [h]
  · intro gen pathPre resp urls baseUrl st hys hnd
    unfold runBatch
    dsimp only
    by_cases hempty : urls.filter
        (fun u => u ≠ [] && !(startsWithL (pstr "data:") u
          || startsWithL (pstr "javascript:") u || startsWithL (pstr "#") u)) = []
    · rw [if_pos hempty, hempty]
      simp
    · rw [if_neg hempty]
      exact runFold_fetchLog gen pathPre resp baseUrl _ ([], st) hys hnd

/-- Witness for `download_dedup` at concrete inputs: an empty collection,
a cache hit that short-circuits, and a singleton batch fetched once. -/
theorem download_dedup_witness :
    ((collectAllAssets (fun _ => []) [] [] []).map Prod.fst).Nodup
      ∧ downloadAssetAsync (fun _ => pstr "f.png") (pstr "assets/") NetResponse.otherError
          (pstr "http://e/a.png") []
          (FetchState.mk [(pstr "http://e/a.png", pstr "assets/f.png")] 0 [] [])
        = (some (pstr "assets/f.png"),
           FetchState.mk [(pstr "http://e/a.png", pstr "assets/f.png")] 0 [] [])
      ∧ (runBatch (fun _ => pstr "f.png") (pstr "assets/") (fun _ => NetResponse.otherError)
          [pstr "http://e/a.png"] [] (FetchState.mk [] 0 [] [])).2.fetchLog
        = [] ++ ([pstr "http://e/a.png"]).filter
            (fun u => u ≠ [] && !(startsWithL (pstr "data:") u
              || startsWithL (pstr "javascript:") u || startsWithL (pstr "#") u)) :=
  ⟨download_dedup.1 (fun _ => []) [] [] [],
   download_dedup.2.1 (fun _ => pstr "f.png") (pstr "assets/") NetResponse.otherError
     (pstr "http://e/a.png") [] (pstr "assets/f.png")
     (FetchState.mk [(pstr "http://e/a.png", pstr "assets/f.png")] 0 [] []) (by decide),
   download_dedup.2.2 (fun _ => pstr "f.png") (pstr "assets/") (fun _ => NetResponse.otherError)
     [pstr "http://e/a.png"] [] (FetchState.mk [] 0 [] []) (by decide) (by decide)⟩

end Scraper

namespace Scraper

/-! ### Fixed-point and round-trip lemmas for the percent codec -/

theorem unquote_length_le (s : List Char) : (unquote s).length ≤ s.length := by
  induction s using unquote.induct with
  | case1 => simp [unquote]
  | case2 h1 h2 rest hhex ih =>
    rw [unquote, if_pos hhex]
    simpa using Nat.le_trans ih (by omega)
  | case3 h1 h2 rest hhex ih =>
    rw [unquote, if_neg hhex]
    simpa using ih
  | case4 c rest hne ih =>
    rw [unquote]
    · simpa using ih
    · exact hne

theorem unquote_eq_or_lt (s : List Char) :
    unquote s = s ∨ (unquote s).length < s.length := by
  induction s using unquote.induct with
  | case1 => left; rfl
  | case2 h1 h2 rest hhex ih =>
    right
    rw [unquote, if_pos hhex]
    have := unquote_length_le rest
    simp
    omega
  | case3 h1 h2 rest hhex ih =>
    rw [unquote, if_neg hhex]
    rcases ih with ih | ih
    · left; rw [ih]
    · right; simpa using ih
  | case4 c rest hne ih =>
    rw [unquote]
    · rcases ih with ih | ih
      · left; rw [ih]
      · right; simpa using ih
    · exact hne

theorem unquote_lt_of_ne (s : List Char) (h : unquote s ≠ s) :
    (unquote s).length < s.length :=
  (unquote_eq_or_lt s).resolve_left h

theorem unquoteFixFuel_of_fix (s : List Char) (h : unquote s = s) :
    ∀ fuel, unquoteFixFuel fuel s = s := by
  intro fuel
  cases fuel with
  | zero => rfl
  | succ n => simp [unquoteFixFuel, h]

theorem unquoteFixFuel_fix :
    ∀ (fuel : Nat) (s : List Char), s.length ≤ fuel →
      unquote (unquoteFixFuel fuel s) = unquoteFixFuel fuel s := by
  intro fuel
  induction fuel with
  | zero =>
    intro s h
    have hs : s = [] := List.eq_nil_of_length_eq_zero (Nat.le_zero.mp h)
    subst hs
    rfl
  | succ n ih =>
    intro s hs
    rw [unquoteFixFuel]
    by_cases ht : unquote s = s
    · rw [if_pos ht]
      exact ht
    · rw [if_neg ht]
      exact ih (unquote s) (by have := unquote_lt_of_ne s ht; omega)

theorem unquote_unquoteFix (s : List Char) :
    unquote (unquoteFix s) = unquoteFix s :=
  unquoteFixFuel_fix (s.length + 1) s (by omega)

theorem unquoteFix_of_fix (s : List Char) (h : unquote s = s) : unquoteFix s = s :=
  unquoteFixFuel_of_fix s h _

theorem unquoteFix_idem (s : List Char) : unquoteFix (unquoteFix s) = unquoteFix s :=
  unquoteFix_of_fix _ (unquote_unquoteFix s)

/-- Reaching the fixed point in one step determines `unquoteFix`. -/
theorem unquoteFix_reach (e x : List Char) (h1 : unquote e = x) (h2 : unquote x = x) :
    unquoteFix e = x := by
  unfold unquoteFix
  rw [unquoteFixFuel]
  by_cases he : unquote e = e
  · rw [if_pos he]
    rw [he] at h1
    exact h1
  · rw [if_neg he, h1]
    exact unquoteFixFuel_of_fix x h2 _

theorem hexDigitUpper_spec : ∀ k, k < 16 →
    isHexDigitC (hexDigitUpper k) = true ∧ hexVal (hexDigitUpper k) = k := by
  decide

theorem unquote_cons_ne (c : Char) (t : List Char) (hc : c ≠ '%') :
    unquote (c :: t) = c :: unquote t := by
  rw [unquote]
  exact fun h1 h2 r hch _ => hc hch

theorem unquote_pct (n : Nat) (hn : n < 256) (t : List Char) :
    unquote (pctUpper n ++ t) = Char.ofNat n :: unquote t := by
  have h1 := hexDigitUpper_spec (n / 16) (by omega)
  have h2 := hexDigitUpper_spec (n % 16) (by omega)
  show unquote ('%' :: hexDigitUpper (n / 16) :: hexDigitUpper (n % 16) :: t) = _
  rw [unquote, if_pos (by rw [h1.1, h2.1]; rfl)]
  rw [h1.2, h2.2]
  congr 1
  congr 1
  omega

theorem unquote_quoteL (safe : List Char) (hsafe : isSafeChar safe '%' = false) :
    ∀ s, unquote (quoteL safe s) = s := by
  intro s
  induction s with
  | nil => rfl
  | cons c t ih =>
    rw [quoteL]
    unfold quoteChar
    by_cases hc : isSafeChar safe c = true
    · rw [if_pos hc]
      have hcp : c ≠ '%' := by
        intro he
        rw [he, hsafe] at hc
        cases hc
      show unquote (c :: quoteL safe t) = c :: t
      rw [unquote_cons_ne c _ hcp, ih]
    · rw [if_neg hc]
      by_cases hlt : c.toNat < 256
      · rw [if_pos hlt, unquote_pct c.toNat hlt, Char.ofNat_toNat, ih]
      · rw [if_neg hlt]
        have hcp : c ≠ '%' := by
          intro he
          rw [he] at hlt
          exact hlt (by decide)
        show unquote (c :: quoteL safe t) = c :: t
        rw [unquote_cons_ne c _ hcp, ih]

theorem quoteL_not_mem (safe : List Char) (bad : Char)
    (hsafe : isSafeChar safe bad = false) (hlt : bad.toNat < 256) (hpct : bad ≠ '%')
    (hhex : ∀ k, k < 16 → hexDigitUpper k ≠ bad) :
    ∀ s, bad ∉ quoteL safe s := by
  intro s
  induction s with
  | nil => simp [quoteL]
  | cons c t ih =>
    rw [quoteL]
    intro hmem
    rcases List.mem_append.mp hmem with hm | hm
    · unfold quoteChar at hm
      by_cases hc : isSafeChar safe c = true
      · rw [if_pos hc] at hm
        simp only [List.mem_singleton] at hm
        subst hm
        rw [hc] at hsafe
        cases hsafe
      · rw [if_neg hc] at hm
        by_cases hlt2 : c.toNat < 256
        · rw [if_pos hlt2] at hm
          unfold pctUpper at hm
          simp only [List.mem_cons, List.mem_singleton, List.not_mem_nil, or_false] at hm
          rcases hm with hm | hm | hm
          · exact hpct hm
          · exact hhex (c.toNat / 16) (by omega) hm.symm
          · exact hhex (c.toNat % 16) (by omega) hm.symm
        · rw [if_neg hlt2] at hm
          simp only [List.mem_singleton] at hm
          subst hm
          omega
    · exact ih hm

theorem unquote_ne_nil (s : List Char) (h : s ≠ []) : unquote s ≠ [] := by
  induction s using unquote.induct with
  | case1 => exact absurd rfl h
  | case2 h1 h2 rest hhex ih =>
    rw [unquote, if_pos hhex]
    simp
  | case3 h1 h2 rest hhex ih =>
    rw [unquote, if_neg hhex]
    simp
  | case4 c rest hne ih =>
    rw [unquote]
    · simp
    · exact hne

theorem unquoteFixFuel_ne_nil (fuel : Nat) :
    ∀ s : List Char, s ≠ [] → unquoteFixFuel fuel s ≠ [] := by
  induction fuel with
  | zero => intro s h; exact h
  | succ n ih =>
    intro s h
    rw [unquoteFixFuel]
    by_cases ht : unquote s = s
    · rw [if_pos ht]; exact h
    · rw [if_neg ht]; exact ih (unquote s) (unquote_ne_nil s h)

theorem unquoteFix_ne_nil (s : List Char) (h : s ≠ []) : unquoteFix s ≠ [] :=
  unquoteFixFuel_ne_nil _ s h

theorem quoteChar_ne_nil (safe : List Char) (c : Char) : quoteChar safe c ≠ [] := by
  unfold quoteChar pctUpper
  split
  · simp
  · split
    · simp
    · simp

theorem quoteL_ne_nil (safe : List Char) (s : List Char) (h : s ≠ []) :
    quoteL safe s ≠ [] := by
  cases s with
  | nil => exact absurd rfl h
  | cons c t =>
    rw [quoteL]
    intro he
    exact quoteChar_ne_nil safe c (List.append_eq_nil.mp he).1

end Scraper

namespace Scraper

/-! ### Splitting and joining lemmas -/

theorem containsC_iff (l : List Char) (c : Char) : l.contains c = true ↔ c ∈ l := by
  simp [List.contains]

theorem containsC_false (l : List Char) (c : Char) (h : c ∉ l) : l.contains c = false := by
  rw [← Bool.not_eq_true, containsC_iff]
  exact h

theorem splitFirst_parts (sep : Char) :
    ∀ (s a b : List Char), splitFirst sep s = some (a, b) → s = a ++ sep :: b ∧ sep ∉ a := by
  intro s
  induction s with
  | nil => intro a b h; cases h
  | cons x xs ih =>
    intro a b h
    by_cases hx : x = sep
    · rw [splitFirst, if_pos hx] at h
      injection h with h
      injection h with h1 h2
      subst h1
      subst h2
      subst hx
      exact ⟨rfl, List.not_mem_nil x⟩
    · rw [splitFirst, if_neg hx] at h
      cases hsp : splitFirst sep xs with
      | none => rw [hsp] at h; cases h
      | some p =>
        obtain ⟨pa, pb⟩ := p
        rw [hsp] at h
        dsimp only at h
        injection h with h
        injection h with h1 h2
        subst h2
        subst h1
        have hrec := ih pa pb hsp
        refine ⟨by rw [List.cons_append, ← hrec.1], ?_⟩
        intro hm
        rcases List.mem_cons.mp hm with hm | hm
        · exact hx hm.symm
        · exact hrec.2 hm

theorem splitFirst_of_not_mem (sep : Char) :
    ∀ s : List Char, sep ∉ s → splitFirst sep s = none := by
  intro s
  induction s with
  | nil => intro h; rfl
  | cons x xs ih =>
    intro h
    rw [splitFirst, if_neg (fun (he : x = sep) => h (List.mem_cons.mpr (Or.inl he.symm))),
      ih (fun hm => h (List.mem_cons_of_mem x hm))]

theorem splitFirst_append_cons (sep : Char) :
    ∀ (x r : List Char), sep ∉ x → splitFirst sep (x ++ sep :: r) = some (x, r) := by
  intro x
  induction x with
  | nil =>
    intro r h
    rw [List.nil_append, splitFirst, if_pos rfl]
  | cons c t ih =>
    intro r h
    rw [List.cons_append, splitFirst,
      if_neg (fun (he : c = sep) => h (List.mem_cons.mpr (Or.inl he.symm))),
      ih r (fun hm => h (List.mem_cons_of_mem c hm))]

theorem splitLast_append_cons (sep : Char) (a b : List Char) (hb : sep ∉ b) :
    splitLast sep (a ++ sep :: b) = some (a, b) := by
  unfold splitLast
  rw [List.reverse_append, List.reverse_cons, List.append_assoc, List.singleton_append,
    splitFirst_append_cons sep b.reverse a.reverse (by simpa using hb)]
  simp

theorem splitLast_of_not_mem (sep : Char) (s : List Char) (h : sep ∉ s) :
    splitLast sep s = none := by
  unfold splitLast
  rw [splitFirst_of_not_mem sep s.reverse (by simpa using h)]

theorem takeUntilAny_parts (stops : List Char) :
    ∀ s : List Char,
      s = (takeUntilAny stops s).1 ++ (takeUntilAny stops s).2
        ∧ ∀ c ∈ (takeUntilAny stops s).1, stops.contains c = false := by
  intro s
  induction s with
  | nil => exact ⟨rfl, by simp [takeUntilAny]⟩
  | cons c t ih =>
    by_cases hc : stops.contains c = true
    · rw [takeUntilAny, if_pos hc]
      exact ⟨rfl, by simp⟩
    · rw [takeUntilAny, if_neg hc]
      refine ⟨by rw [List.cons_append]; exact congrArg (c :: ·) ih.1, ?_⟩
      intro x hx
      rcases List.mem_cons.mp hx with hx | hx
      · subst hx
        simpa using hc
      · exact ih.2 x hx

theorem takeUntilAny_all (stops : List Char) :
    ∀ s : List Char, (∀ c ∈ s, stops.contains c = false) →
      takeUntilAny stops s = (s, []) := by
  intro s
  induction s with
  | nil => intro h; rfl
  | cons c t ih =>
    intro h
    rw [takeUntilAny, if_neg (by rw [h c (List.mem_cons_self c t)]; simp),
      ih (fun x hx => h x (List.mem_cons_of_mem c hx))]

theorem takeUntilAny_stop (stops : List Char) :
    ∀ (xs : List Char) (s0 : Char) (r : List Char),
      (∀ c ∈ xs, stops.contains c = false) → stops.contains s0 = true →
      takeUntilAny stops (xs ++ s0 :: r) = (xs, s0 :: r) := by
  intro xs
  induction xs with
  | nil =>
    intro s0 r hx hs
    rw [List.nil_append, takeUntilAny, if_pos hs]
  | cons c t ih =>
    intro s0 r hx hs
    rw [List.cons_append, takeUntilAny,
      if_neg (by rw [hx c (List.mem_cons_self c t)]; simp),
      ih s0 r (fun x hxm => hx x (List.mem_cons_of_mem c hxm)) hs]

theorem splitAll_ne_nil (sep : Char) : ∀ s : List Char, splitAll sep s ≠ [] := by
  intro s
  induction s with
  | nil => simp [splitAll]
  | cons c t ih =>
    simp only [splitAll]
    by_cases hc : c = sep
    · rw [if_pos hc]
      simp
    · rw [if_neg hc]
      cases hsp : splitAll sep t with
      | nil => simp
      | cons h rest => simp

theorem splitAll_no_sep (sep : Char) :
    ∀ s : List Char, sep ∉ s → splitAll sep s = [s] := by
  intro s
  induction s with
  | nil => intro h; rfl
  | cons c t ih =>
    intro h
    simp only [splitAll]
    rw [if_neg (fun (he : c = sep) => h (List.mem_cons.mpr (Or.inl he.symm))),
      ih (fun hm => h (List.mem_cons_of_mem c hm))]

theorem splitAll_append_cons (sep : Char) :
    ∀ (x r : List Char), sep ∉ x →
      splitAll sep (x ++ sep :: r) = x :: splitAll sep r := by
  intro x
  induction x with
  | nil =>
    intro r h
    rw [List.nil_append]
    simp [splitAll]
  | cons c t ih =>
    intro r h
    rw [List.cons_append]
    simp only [splitAll]
    rw [if_neg (fun (he : c = sep) => h (List.mem_cons.mpr (Or.inl he.symm))),
      ih r (fun hm => h (List.mem_cons_of_mem c hm))]

theorem splitAll_join (sep : Char) :
    ∀ parts : List (List Char), parts ≠ [] → (∀ x ∈ parts, sep ∉ x) →
      splitAll sep (joinSep sep parts) = parts := by
  intro parts
  induction parts with
  | nil => intro h; exact absurd rfl h
  | cons x rest ih =>
    intro hne hmem
    cases rest with
    | nil =>
      show splitAll sep (joinSep sep [x]) = [x]
      exact splitAll_no_sep sep x (hmem x (List.mem_cons_self x []))
    | cons y t =>
      show splitAll sep (x ++ sep :: joinSep sep (y :: t)) = x :: y :: t
      rw [splitAll_append_cons sep x _ (hmem x (List.mem_cons_self x _)),
        ih (by simp) (fun z hz => hmem z (List.mem_cons_of_mem x hz))]

theorem joinSep_mem (sep : Char) :
    ∀ (parts : List (List Char)) (c : Char), c ∈ joinSep sep parts →
      c = sep ∨ ∃ x ∈ parts, c ∈ x := by
  intro parts
  induction parts with
  | nil => intro c h; cases h
  | cons x rest ih =>
    intro c h
    cases rest with
    | nil =>
      right
      exact ⟨x, List.mem_cons_self x [], h⟩
    | cons y t =>
      rw [show joinSep sep (x :: y :: t) = x ++ sep :: joinSep sep (y :: t) from rfl] at h
      rcases List.mem_append.mp h with h | h
      · right
        exact ⟨x, List.mem_cons_self x _, h⟩
      · rcases List.mem_cons.mp h with h | h
        · left
          exact h
        · rcases ih c h with h | ⟨z, hz, hc⟩
          · left
            exact h
          · right
            exact ⟨z, List.mem_cons_of_mem x hz, hc⟩

theorem sanitizeUrl_chars (x : List Char) :
    ∀ c ∈ sanitizeUrl x, c ≠ '\t' ∧ c ≠ '\r' ∧ c ≠ '\n' := by
  intro c hc
  unfold sanitizeUrl dropBadBytes at hc
  have h := List.of_mem_filter hc
  simp only [Bool.not_eq_true', Bool.or_eq_false_iff, decide_eq_false_iff_not] at h
  exact ⟨h.1.1, h.1.2, h.2⟩

theorem sanitizeUrl_eq_self (s : List Char)
    (hgood : ∀ c ∈ s, c ≠ '\t' ∧ c ≠ '\r' ∧ c ≠ '\n')
    (hhead : ∀ c, s.head? = some c → 32 < c.toNat) :
    sanitizeUrl s = s := by
  unfold sanitizeUrl
  have hl : lstripC0 s = s := by
    unfold lstripC0
    cases s with
    | nil => rfl
    | cons c t =>
      rw [List.dropWhile_cons, if_neg (by simpa using Nat.not_le.mpr (hhead c rfl))]
  rw [hl]
  unfold dropBadBytes
  rw [List.filter_eq_self]
  intro c hc
  have h := hgood c hc
  simp [h.1, h.2.1, h.2.2]

end Scraper

namespace Scraper

/-! ### Idempotence of the per-component encoders -/

theorem mem_of_splitFirst_none (sep : Char) :
    ∀ s : List Char, splitFirst sep s = none → sep ∉ s := by
  intro s
  induction s with
  | nil => intro _ h; cases h
  | cons x xs ih =>
    intro h hm
    by_cases hx : x = sep
    · rw [splitFirst, if_pos hx] at h
      cases h
    · rw [splitFirst, if_neg hx] at h
      cases hsp : splitFirst sep xs with
      | some p => rw [hsp] at h; cases p; cases h
      | none =>
        rcases List.mem_cons.mp hm with hm | hm
        · exact hx hm.symm
        · exact ih hsp hm

theorem last_sep_decomp (sep : Char) :
    ∀ s : List Char, sep ∈ s → ∃ a b, s = a ++ sep :: b ∧ sep ∉ b := by
  intro s
  induction s with
  | nil => intro h; cases h
  | cons c t ih =>
    intro h
    by_cases hmem : sep ∈ t
    · obtain ⟨a, b, hab, hb⟩ := ih hmem
      exact ⟨c :: a, b, by rw [hab, List.cons_append], hb⟩
    · have hc : c = sep := by
        rcases List.mem_cons.mp h with h | h
        · exact h.symm
        · exact absurd h hmem
      exact ⟨[], t, by rw [hc, List.nil_append], hmem⟩

theorem encodeSegment_not_mem (part : List Char) (bad : Char)
    (hsafe : isSafeChar (pstr "-._~") bad = false) (hlt : bad.toNat < 256)
    (hpct : bad ≠ '%') (hhex : ∀ k, k < 16 → hexDigitUpper k ≠ bad) :
    bad ∉ encodeSegment part := by
  unfold encodeSegment
  split
  · exact List.not_mem_nil bad
  · exact quoteL_not_mem _ bad hsafe hlt hpct hhex _

theorem encodeSegment_idem (part : List Char) :
    encodeSegment (encodeSegment part) = encodeSegment part := by
  by_cases hp : part = []
  · subst hp
    rfl
  · have h1 : encodeSegment part = quoteL (pstr "-._~") (unquoteFix part) := by
      unfold encodeSegment
      rw [if_neg hp]
    have hne : quoteL (pstr "-._~") (unquoteFix part) ≠ [] :=
      quoteL_ne_nil _ _ (unquoteFix_ne_nil part hp)
    rw [h1]
    unfold encodeSegment
    rw [if_neg hne,
      unquoteFix_reach _ _ (unquote_quoteL _ (by decide) _) (unquote_unquoteFix part)]

theorem encodePath_not_mem (path : List Char) (bad : Char)
    (hslash : bad ≠ '/')
    (hsafe : isSafeChar (pstr "-._~") bad = false) (hlt : bad.toNat < 256)
    (hpct : bad ≠ '%') (hhex : ∀ k, k < 16 → hexDigitUpper k ≠ bad) :
    bad ∉ encodePath path := by
  intro hm
  rcases joinSep_mem '/' _ bad hm with h | ⟨x, hx, hc⟩
  · exact hslash h
  · rcases List.mem_map.mp hx with ⟨seg, hseg, rfl⟩
    exact encodeSegment_not_mem seg bad hsafe hlt hpct hhex hc

theorem encodePath_map_ne_nil (path : List Char) :
    (splitAll '/' path).map encodeSegment ≠ [] := by
  intro hmm
  exact splitAll_ne_nil '/' path (List.map_eq_nil_iff.mp hmm)

theorem encodePath_idem (path : List Char) :
    encodePath (encodePath path) = encodePath path := by
  unfold encodePath
  rw [splitAll_join '/' _ (encodePath_map_ne_nil path) ?hmem]
  case hmem =>
    intro x hx
    rcases List.mem_map.mp hx with ⟨seg, hseg, rfl⟩
    exact encodeSegment_not_mem seg '/' (by decide) (by decide) (by decide) (by decide)
  refine congrArg (joinSep '/') ?_
  rw [List.map_map]
  exact List.map_congr_left (fun a ha => encodeSegment_idem a)

theorem encodePath_nil : encodePath [] = [] := by
  decide

theorem encodePath_cons_slash (p : List Char) :
    encodePath ('/' :: p) = '/' :: encodePath p := by
  unfold encodePath
  have h : splitAll '/' ('/' :: p) = [] :: splitAll '/' p := by
    simp only [splitAll]
    rw [if_pos trivial]
  rw [h, List.map_cons]
  have he : encodeSegment ([] : List Char) = [] := rfl
  rw [he]
  cases hxs : (splitAll '/' p).map encodeSegment with
  | nil => exact absurd (List.map_eq_nil_iff.mp hxs) (splitAll_ne_nil '/' p)
  | cons y ys => rfl

theorem encodeQuery_stable (nl q : List Char) :
    encodeQuery nl (encodeQuery nl q) = encodeQuery nl q := by
  by_cases hq : q = []
  · subst hq
    rfl
  · unfold encodeQuery
    rw [if_neg hq]
    by_cases hf : fontsHost nl = true
    · rw [if_pos hf, if_neg (unquoteFix_ne_nil q hq), if_pos hf, unquoteFix_idem]
    · rw [if_neg hf, if_neg (quoteL_ne_nil _ _ (unquote_ne_nil q hq)), if_neg hf,
        unquote_quoteL _ (by decide)]

end Scraper

namespace Scraper

/-! ### Invariants of the components produced by a successful parse -/

theorem splitLast_parts (sep : Char) (s a b : List Char) (h : splitLast sep s = some (a, b)) :
    s = a ++ sep :: b ∧ sep ∉ b := by
  unfold splitLast at h
  cases hsp : splitFirst sep s.reverse with
  | none => rw [hsp] at h; cases h
  | some pr =>
    obtain ⟨x, y⟩ := pr
    rw [hsp] at h
    dsimp only at h
    injection h with h
    injection h with h1 h2
    have hp := splitFirst_parts sep s.reverse x y hsp
    subst h1
    subst h2
    constructor
    · have h3 := congrArg List.reverse hp.1
      rw [List.reverse_reverse] at h3
      rw [h3]
      simp
    · simpa using hp.2

/-- The netloc/path/query/fragment stage of `urlsplitE`, shared by the three
scheme-detection branches. -/
theorem urlsplit_stage2 (scheme url1 : List Char) (p : UrlParts)
    (hchars : ∀ c ∈ url1, c ≠ '\t' ∧ c ≠ '\r' ∧ c ≠ '\n')
    (h : (let netlocUrl :=
            if startsWithL (pstr "//") url1 then takeUntilAny (pstr "/?#") (url1.drop 2)
            else (([] : List Char), url1)
          let netloc := netlocUrl.1
          let url2 := netlocUrl.2
          if (netloc.contains '[' && !netloc.contains ']')
              || (netloc.contains ']' && !netloc.contains '[') then
            (.error () : Except Unit UrlParts)
          else
            let urlFrag :=
              match splitFirst '#' url2 with
              | some (a, b) => (a, b)
              | none => (url2, ([] : List Char))
            let urlQuery :=
              match splitFirst '?' urlFrag.1 with
              | some (a, b) => (a, b)
              | none => (urlFrag.1, ([] : List Char))
            .ok ⟨scheme, netloc, urlQuery.1, [], urlQuery.2, urlFrag.2⟩) = .ok p) :
    (∀ c ∈ p.netloc, (pstr "/?#").contains c = false ∧ c ≠ '\t' ∧ c ≠ '\r' ∧ c ≠ '\n')
    ∧ ((p.netloc.contains '[' && !p.netloc.contains ']')
        || (p.netloc.contains ']' && !p.netloc.contains '[')) = false
    ∧ (∀ c ∈ p.path, c ≠ '#' ∧ c ≠ '?' ∧ c ≠ '\t' ∧ c ≠ '\r' ∧ c ≠ '\n')
    ∧ (∀ c ∈ p.query, c ≠ '#' ∧ c ≠ '\t' ∧ c ≠ '\r' ∧ c ≠ '\n')
    ∧ (∀ c ∈ p.fragment, c ≠ '\t' ∧ c ≠ '\r' ∧ c ≠ '\n')
    ∧ p.params = [] := by
  set nu := (if startsWithL (pstr "//") url1 then takeUntilAny (pstr "/?#") (url1.drop 2)
             else (([] : List Char), url1)) with hnu
  have hnu1 : ∀ c ∈ nu.1, (pstr "/?#").contains c = false ∧ c ≠ '\t' ∧ c ≠ '\r' ∧ c ≠ '\n' := by
    rw [hnu]
    split
    · intro c hc
      have hp := takeUntilAny_parts (pstr "/?#") (url1.drop 2)
      refine ⟨hp.2 c hc, ?_⟩
      have hcm : c ∈ url1.drop 2 := by
        rw [hp.1]
        exact List.mem_append_left _ hc
      exact hchars c (List.drop_subset _ _ hcm)
    · intro c hc
      cases hc
  have hnu2 : ∀ c ∈ nu.2, c ≠ '\t' ∧ c ≠ '\r' ∧ c ≠ '\n' := by
    rw [hnu]
    split
    · intro c hc
      have hp := takeUntilAny_parts (pstr "/?#") (url1.drop 2)
      have hcm : c ∈ url1.drop 2 := by
        rw [hp.1]
        exact List.mem_append_right _ hc
      exact hchars c (List.drop_subset _ _ hcm)
    · exact hchars
  dsimp only at h
  by_cases hbr : ((nu.1.contains '[' && !nu.1.contains ']')
      || (nu.1.contains ']' && !nu.1.contains '[')) = true
  · rw [if_pos hbr] at h
    exact absurd h (by simp)
  · rw [if_neg hbr] at h
    cases hf : splitFirst '#' nu.2 with
    | none =>
      rw [hf] at h
      dsimp only at h
      have hnf : '#' ∉ nu.2 := mem_of_splitFirst_none '#' nu.2 hf
      cases hq : splitFirst '?' nu.2 with
      | none =>
        rw [hq] at h
        dsimp only at h
        injection h with h2
        subst h2
        refine ⟨hnu1, by simpa using hbr, ?_, ?_, ?_, rfl⟩
        · intro c hc
          exact ⟨fun he => hnf (he ▸ hc), fun he => mem_of_splitFirst_none '?' nu.2 hq (he ▸ hc),
            hnu2 c hc⟩
        · intro c hc
          cases hc
        · intro c hc
          cases hc
      | some pr =>
        obtain ⟨qa, qb⟩ := pr
        rw [hq] at h
        dsimp only at h
        injection h with h2
        subst h2
        have hqp := splitFirst_parts '?' nu.2 qa qb hq
        have hqa : ∀ c ∈ qa, c ∈ nu.2 := by
          intro c hc
          rw [hqp.1]
          exact List.mem_append_left _ hc
        have hqb : ∀ c ∈ qb, c ∈ nu.2 := by
          intro c hc
          rw [hqp.1]
          exact List.mem_append_right _ (List.mem_cons_of_mem _ hc)
        refine ⟨hnu1, by simpa using hbr, ?_, ?_, ?_, rfl⟩
        · intro c hc
          exact ⟨fun he => hnf (he ▸ hqa c hc), fun he => hqp.2 (he ▸ hc), hnu2 c (hqa c hc)⟩
        · intro c hc
          exact ⟨fun he => hnf (he ▸ hqb c hc), hnu2 c (hqb c hc)⟩
        · intro c hc
          cases hc
    | some pr =>
      obtain ⟨fa, fb⟩ := pr
      rw [hf] at h
      dsimp only at h
      have hfp := splitFirst_parts '#' nu.2 fa fb hf
      have hfa : ∀ c ∈ fa, c ∈ nu.2 := by
        intro c hc
        rw [hfp.1]
        exact List.mem_append_left _ hc
      have hfb : ∀ c ∈ fb, c ∈ nu.2 := by
        intro c hc
        rw [hfp.1]
        exact List.mem_append_right _ (List.mem_cons_of_mem _ hc)
      cases hq : splitFirst '?' fa with
      | none =>
        rw [hq] at h
        dsimp only at h
        injection h with h2
        subst h2
        refine ⟨hnu1, by simpa using hbr, ?_, ?_, ?_, rfl⟩
        · intro c hc
          exact ⟨fun he => hfp.2 (he ▸ hc), fun he => mem_of_splitFirst_none '?' fa hq (he ▸ hc),
            hnu2 c (hfa c hc)⟩
        · intro c hc
          cases hc
        · intro c hc
          exact hnu2 c (hfb c hc)
      | some pr2 =>
        obtain ⟨qa, qb⟩ := pr2
        rw [hq] at h
        dsimp only at h
        injection h with h2
        subst h2
        have hqp := splitFirst_parts '?' fa qa qb hq
        have hqa : ∀ c ∈ qa, c ∈ fa := by
          intro c hc
          rw [hqp.1]
          exact List.mem_append_left _ hc
        have hqb : ∀ c ∈ qb, c ∈ fa := by
          intro c hc
          rw [hqp.1]
          exact List.mem_append_right _ (List.mem_cons_of_mem _ hc)
        refine ⟨hnu1, by simpa using hbr, ?_, ?_, ?_, rfl⟩
        · intro c hc
          exact ⟨fun he => hfp.2 (he ▸ hqa c hc), fun he => hqp.2 (he ▸ hc),
            hnu2 c (hfa c (hqa c hc))⟩
        · intro c hc
          exact ⟨fun he => hfp.2 (he ▸ hqb c hc), hnu2 c (hfa c (hqb c hc))⟩
        · intro c hc
          exact hnu2 c (hfb c hc)

theorem urlsplitE_ok_facts (scheme0 url0 : List Char) (p : UrlParts)
    (h : urlsplitE scheme0 url0 = .ok p) :
    (∀ c ∈ p.netloc, (pstr "/?#").contains c = false ∧ c ≠ '\t' ∧ c ≠ '\r' ∧ c ≠ '\n')
    ∧ ((p.netloc.contains '[' && !p.netloc.contains ']')
        || (p.netloc.contains ']' && !p.netloc.contains '[')) = false
    ∧ (∀ c ∈ p.path, c ≠ '#' ∧ c ≠ '?' ∧ c ≠ '\t' ∧ c ≠ '\r' ∧ c ≠ '\n')
    ∧ (∀ c ∈ p.query, c ≠ '#' ∧ c ≠ '\t' ∧ c ≠ '\r' ∧ c ≠ '\n')
    ∧ (∀ c ∈ p.fragment, c ≠ '\t' ∧ c ≠ '\r' ∧ c ≠ '\n')
    ∧ p.params = [] := by
  unfold urlsplitE at h
  dsimp only at h
  cases hsp : splitFirst ':' (sanitizeUrl url0) with
  | none =>
    rw [hsp] at h
    dsimp only at h
    exact urlsplit_stage2 scheme0 (sanitizeUrl url0) p (sanitizeUrl_chars url0) h
  | some pr =>
    obtain ⟨before, after⟩ := pr
    rw [hsp] at h
    dsimp only at h
    have hafter : ∀ c ∈ after, c ≠ '\t' ∧ c ≠ '\r' ∧ c ≠ '\n' := by
      intro c hc
      refine sanitizeUrl_chars url0 c ?_
      rw [(splitFirst_parts ':' _ _ _ hsp).1]
      exact List.mem_append_right _ (List.mem_cons_of_mem _ hc)
    by_cases hco : (before ≠ [] && schemeHeadOk before && before.all isSchemeChar) = true
    · rw [if_pos hco] at h
      dsimp only at h
      exact urlsplit_stage2 (lowerStr before) after p hafter h
    · rw [if_neg hco] at h
      dsimp only at h
      exact urlsplit_stage2 scheme0 (sanitizeUrl url0) p (sanitizeUrl_chars url0) h

theorem splitparamsM_facts (u : List Char) :
    (∀ c ∈ (splitparamsM u).1, c ∈ u) ∧ (∀ c ∈ (splitparamsM u).2, c ∈ u)
      ∧ '/' ∉ (splitparamsM u).2 := by
  unfold splitparamsM
  by_cases hs : u.contains '/' = true
  · rw [if_pos hs]
    cases hsl : splitLast '/' u with
    | none =>
      dsimp only
      exact ⟨fun c hc => hc, fun c hc => (List.not_mem_nil c hc).elim, List.not_mem_nil '/'⟩
    | some pr =>
      obtain ⟨pre, post⟩ := pr
      dsimp only
      have hlp := splitLast_parts '/' u pre post hsl
      cases hsf : splitFirst ';' post with
      | none =>
        dsimp only
        exact ⟨fun c hc => hc, fun c hc => (List.not_mem_nil c hc).elim, List.not_mem_nil '/'⟩
      | some pr2 =>
        obtain ⟨a, b⟩ := pr2
        dsimp only
        have hfp := splitFirst_parts ';' post a b hsf
        refine ⟨?_, ?_, ?_⟩
        · intro c hc
          rw [hlp.1, hfp.1]
          rcases List.mem_append.mp hc with hc | hc
          · exact List.mem_append_left _ hc
          · rcases List.mem_cons.mp hc with hc | hc
            · subst hc
              exact List.mem_append_right _ (List.mem_cons_self _ _)
            · exact List.mem_append_right _
                (List.mem_cons_of_mem _ (List.mem_append_left _ hc))
        · intro c hc
          rw [hlp.1, hfp.1]
          exact List.mem_append_right _
            (List.mem_cons_of_mem _ (List.mem_append_right _ (List.mem_cons_of_mem _ hc)))
        · intro hm
          refine hlp.2 ?_
          rw [hfp.1]
          exact List.mem_append_right _ (List.mem_cons_of_mem _ hm)
  · rw [if_neg hs]
    have hnm : '/' ∉ u := fun hm => hs ((containsC_iff u '/').mpr hm)
    cases hsf : splitFirst ';' u with
    | none =>
      dsimp only
      exact ⟨fun c hc => List.dropLast_subset u hc, fun c hc => hc, hnm⟩
    | some pr2 =>
      obtain ⟨a, b⟩ := pr2
      dsimp only
      have hfp := splitFirst_parts ';' u a b hsf
      refine ⟨?_, ?_, ?_⟩
      · intro c hc
        rw [hfp.1]
        exact List.mem_append_left _ hc
      · intro c hc
        rw [hfp.1]
        exact List.mem_append_right _ (List.mem_cons_of_mem _ hc)
      · intro hm
        refine hnm ?_
        rw [hfp.1]
        exact List.mem_append_right _ (List.mem_cons_of_mem _ hm)

theorem urlparseE_ok_facts (url0 : List Char) (p : UrlParts)
    (h : urlparseE [] url0 = .ok p) :
    (∀ c ∈ p.netloc, (pstr "/?#").contains c = false ∧ c ≠ '\t' ∧ c ≠ '\r' ∧ c ≠ '\n')
    ∧ ((p.netloc.contains '[' && !p.netloc.contains ']')
        || (p.netloc.contains ']' && !p.netloc.contains '[')) = false
    ∧ (∀ c ∈ p.path, c ≠ '#' ∧ c ≠ '?' ∧ c ≠ '\t' ∧ c ≠ '\r' ∧ c ≠ '\n')
    ∧ (∀ c ∈ p.params, c ≠ '/' ∧ c ≠ '#' ∧ c ≠ '?' ∧ c ≠ '\t' ∧ c ≠ '\r' ∧ c ≠ '\n')
    ∧ (∀ c ∈ p.query, c ≠ '#' ∧ c ≠ '\t' ∧ c ≠ '\r' ∧ c ≠ '\n')
    ∧ (∀ c ∈ p.fragment, c ≠ '\t' ∧ c ≠ '\r' ∧ c ≠ '\n') := by
  unfold urlparseE at h
  cases hs : urlsplitE [] url0 with
  | error e =>
    rw [hs] at h
    dsimp only [bind, Except.bind] at h
    exact absurd h (by simp)
  | ok s =>
    rw [hs] at h
    dsimp only [bind, Except.bind, pure, Except.pure] at h
    have hsf := urlsplitE_ok_facts [] url0 s hs
    split at h
    · injection h with h2
      subst h2
      have hpp := splitparamsM_facts s.path
      refine ⟨hsf.1, hsf.2.1, ?_, ?_, hsf.2.2.2.1, hsf.2.2.2.2.1⟩
      · intro c hc
        exact hsf.2.2.1 c (hpp.1 c hc)
      · intro c hc
        have hcp := hsf.2.2.1 c (hpp.2.1 c hc)
        exact ⟨fun he => hpp.2.2 (he ▸ hc), hcp.1, hcp.2.1, hcp.2.2.1, hcp.2.2.2⟩
    · injection h with h2
      subst h2
      exact ⟨hsf.1, hsf.2.1, hsf.2.2.1, by rw [hsf.2.2.2.2.2]; exact fun c hc => (List.not_mem_nil c hc).elim,
        hsf.2.2.2.1, hsf.2.2.2.2.1⟩

end Scraper

namespace Scraper

/-! ### Re-parsing the rebuilt URL -/

theorem takeUntilAny_append_head (stops xs r : List Char)
    (hx : ∀ c ∈ xs, stops.contains c = false)
    (hr : r = [] ∨ ∃ h0 t0, r = h0 :: t0 ∧ stops.contains h0 = true) :
    takeUntilAny stops (xs ++ r) = (xs, r) := by
  rcases hr with h | ⟨h0, t0, he, hh⟩
  · subst h
    rw [List.append_nil]
    exact takeUntilAny_all stops xs hx
  · subst he
    exact takeUntilAny_stop stops xs h0 t0 hx hh

/-- A successful `urlsplit` of the string reassembled by `urlunsplit` from an
http(s) scheme, a well-formed netloc, a slash-headed (or empty) path-and-params
part, a hash-free query and a fragment recovers the five components exactly. -/
theorem urlsplitE_rebuilt (S NL u2 Q F : List Char)
    (hS : S = pstr "http" ∨ S = pstr "https")
    (hNL : ∀ c ∈ NL, (pstr "/?#").contains c = false ∧ c ≠ '\t' ∧ c ≠ '\r' ∧ c ≠ '\n')
    (hbr : ((NL.contains '[' && !NL.contains ']')
        || (NL.contains ']' && !NL.contains '[')) = false)
    (hu2h : u2 = [] ∨ ∃ u2t, u2 = '/' :: u2t)
    (hu2c : ∀ c ∈ u2, c ≠ '#' ∧ c ≠ '?' ∧ c ≠ '\t' ∧ c ≠ '\r' ∧ c ≠ '\n')
    (hQc : ∀ c ∈ Q, c ≠ '#' ∧ c ≠ '\t' ∧ c ≠ '\r' ∧ c ≠ '\n')
    (hFc : ∀ c ∈ F, c ≠ '\t' ∧ c ≠ '\r' ∧ c ≠ '\n') :
    urlsplitE [] (((S ++ ':' :: '/' :: '/' :: (NL ++ u2)) ++ (if Q ≠ [] then '?' :: Q else []))
        ++ (if F ≠ [] then '#' :: F else [])) = .ok ⟨S, NL, u2, [], Q, F⟩ := by
  have hlow : lowerStr S = S := by
    rcases hS with h | h <;> subst h <;> decide
  have hcond : (S ≠ [] && schemeHeadOk S && S.all isSchemeChar) = true := by
    rcases hS with h | h <;> subst h <;> decide
  have hncolon : ':' ∉ S := by
    rcases hS with h | h <;> subst h <;> decide
  have hSc : ∀ c ∈ S, c ≠ '\t' ∧ c ≠ '\r' ∧ c ≠ '\n' := by
    rcases hS with h | h <;> subst h <;> decide
  have hQPc : ∀ c ∈ (if Q ≠ [] then '?' :: Q else []), c ≠ '\t' ∧ c ≠ '\r' ∧ c ≠ '\n' := by
    split
    · intro c hc
      rcases List.mem_cons.mp hc with hc | hc
      · subst hc
        exact ⟨by decide, by decide, by decide⟩
      · exact (hQc c hc).2
    · intro c hc
      cases hc
  have hFPc : ∀ c ∈ (if F ≠ [] then '#' :: F else []), c ≠ '\t' ∧ c ≠ '\r' ∧ c ≠ '\n' := by
    split
    · intro c hc
      rcases List.mem_cons.mp hc with hc | hc
      · subst hc
        exact ⟨by decide, by decide, by decide⟩
      · exact hFc c hc
    · intro c hc
      cases hc
  have hall : ∀ c ∈ ((S ++ ':' :: '/' :: '/' :: (NL ++ u2)) ++ (if Q ≠ [] then '?' :: Q else []))
      ++ (if F ≠ [] then '#' :: F else []), c ≠ '\t' ∧ c ≠ '\r' ∧ c ≠ '\n' := by
    intro c hc
    rcases List.mem_append.mp hc with hc | hc
    · rcases List.mem_append.mp hc with hc | hc
      · rcases List.mem_append.mp hc with hc | hc
        · exact hSc c hc
        · rcases List.mem_cons.mp hc with hc | hc
          · subst hc
            exact ⟨by decide, by decide, by decide⟩
          rcases List.mem_cons.mp hc with hc | hc
          · subst hc
            exact ⟨by decide, by decide, by decide⟩
          rcases List.mem_cons.mp hc with hc | hc
          · subst hc
            exact ⟨by decide, by decide, by decide⟩
          rcases List.mem_append.mp hc with hc | hc
          · exact (hNL c hc).2
          · exact (hu2c c hc).2.2
      · exact hQPc c hc
    · exact hFPc c hc
  have hhead : ∀ c, (((S ++ ':' :: '/' :: '/' :: (NL ++ u2))
      ++ (if Q ≠ [] then '?' :: Q else []))
      ++ (if F ≠ [] then '#' :: F else [])).head? = some c → 32 < c.toNat := by
    intro c hc
    rcases hS with h | h <;> rw [h] at hc
    · rw [show pstr "http" = 'h' :: pstr "ttp" from rfl, List.cons_append, List.cons_append,
        List.cons_append, List.head?_cons] at hc
      injection hc with hc
      rw [← hc]
      decide
    · rw [show pstr "https" = 'h' :: pstr "ttps" from rfl, List.cons_append, List.cons_append,
        List.cons_append, List.head?_cons] at hc
      injection hc with hc
      rw [← hc]
      decide
  have hsan : sanitizeUrl (((S ++ ':' :: '/' :: '/' :: (NL ++ u2))
      ++ (if Q ≠ [] then '?' :: Q else []))
      ++ (if F ≠ [] then '#' :: F else []))
      = ((S ++ ':' :: '/' :: '/' :: (NL ++ u2)) ++ (if Q ≠ [] then '?' :: Q else []))
      ++ (if F ≠ [] then '#' :: F else []) :=
    sanitizeUrl_eq_self _ hall hhead
  have hassoc : ((S ++ ':' :: '/' :: '/' :: (NL ++ u2)) ++ (if Q ≠ [] then '?' :: Q else []))
      ++ (if F ≠ [] then '#' :: F else [])
      = S ++ ':' :: ('/' :: '/' :: (((NL ++ u2) ++ (if Q ≠ [] then '?' :: Q else []))
        ++ (if F ≠ [] then '#' :: F else []))) := by
    simp [List.append_assoc]
  have hsplit : splitFirst ':' (((S ++ ':' :: '/' :: '/' :: (NL ++ u2))
      ++ (if Q ≠ [] then '?' :: Q else [])) ++ (if F ≠ [] then '#' :: F else []))
      = some (S, '/' :: '/' :: (((NL ++ u2) ++ (if Q ≠ [] then '?' :: Q else []))
        ++ (if F ≠ [] then '#' :: F else []))) := by
    rw [hassoc]
    exact splitFirst_append_cons ':' S _ hncolon
  have hhash : '#' ∉ u2 ++ (if Q ≠ [] then '?' :: Q else []) := by
    intro hm
    rcases List.mem_append.mp hm with hm | hm
    · exact (hu2c _ hm).1 rfl
    · by_cases hQ : Q = []
      · rw [if_neg (fun hh => hh hQ)] at hm
        cases hm
      · rw [if_pos hQ] at hm
        rcases List.mem_cons.mp hm with hm | hm
        · exact absurd hm (by decide)
        · exact (hQc _ hm).1 rfl
  have hque : '?' ∉ u2 := fun hm => (hu2c _ hm).2.1 rfl
  have htail : ((u2 ++ (if Q ≠ [] then '?' :: Q else []))
        ++ (if F ≠ [] then '#' :: F else [])) = []
      ∨ ∃ h0 t0, ((u2 ++ (if Q ≠ [] then '?' :: Q else []))
        ++ (if F ≠ [] then '#' :: F else [])) = h0 :: t0
        ∧ (pstr "/?#").contains h0 = true := by
    rcases hu2h with hu | ⟨u2t, hu⟩
    · rw [hu, List.nil_append]
      by_cases hQ : Q = []
      · rw [if_neg (fun hh => hh hQ), List.nil_append]
        by_cases hF : F = []
        · rw [if_neg (fun hh => hh hF)]
          exact Or.inl rfl
        · rw [if_pos hF]
          exact Or.inr ⟨'#', F, rfl, by decide⟩
      · rw [if_pos hQ, List.cons_append]
        exact Or.inr ⟨'?', Q ++ (if F ≠ [] then '#' :: F else []), rfl, by decide⟩
    · rw [hu, List.cons_append, List.cons_append]
      exact Or.inr ⟨'/', (u2t ++ (if Q ≠ [] then '?' :: Q else []))
        ++ (if F ≠ [] then '#' :: F else []), rfl, by decide⟩
  have htak : takeUntilAny (pstr "/?#") (NL ++ ((u2 ++ (if Q ≠ [] then '?' :: Q else []))
      ++ (if F ≠ [] then '#' :: F else [])))
      = (NL, (u2 ++ (if Q ≠ [] then '?' :: Q else [])) ++ (if F ≠ [] then '#' :: F else [])) :=
    takeUntilAny_append_head _ _ _ (fun c hc => (hNL c hc).1) htail
  unfold urlsplitE
  dsimp only
  rw [hsan, hsplit]
  dsimp only
  rw [if_pos hcond]
  dsimp only
  rw [hlow]
  rw [if_pos (show startsWithL (pstr "//") ('/' :: '/' :: (((NL ++ u2)
      ++ (if Q ≠ [] then '?' :: Q else [])) ++ (if F ≠ [] then '#' :: F else []))) = true
      from rfl)]
  rw [show ('/' :: '/' :: (((NL ++ u2) ++ (if Q ≠ [] then '?' :: Q else []))
      ++ (if F ≠ [] then '#' :: F else []))).drop 2
      = ((NL ++ u2) ++ (if Q ≠ [] then '?' :: Q else []))
        ++ (if F ≠ [] then '#' :: F else []) from rfl]
  rw [show ((NL ++ u2) ++ (if Q ≠ [] then '?' :: Q else []))
        ++ (if F ≠ [] then '#' :: F else [])
      = NL ++ ((u2 ++ (if Q ≠ [] then '?' :: Q else []))
        ++ (if F ≠ [] then '#' :: F else [])) from by simp [List.append_assoc]]
  rw [htak]
  dsimp only
  rw [if_neg (show ¬ ((NL.contains '[' && !NL.contains ']')
      || (NL.contains ']' && !NL.contains '[')) = true from by rw [hbr]; exact Bool.false_ne_true)]
  by_cases hF : F = []
  · rw [hF]
    rw [if_neg (show ¬ (([] : List Char) ≠ []) from fun hh => hh rfl), List.append_nil,
      splitFirst_of_not_mem '#' _ hhash]
    dsimp only
    by_cases hQ : Q = []
    · rw [hQ, if_neg (show ¬ (([] : List Char) ≠ []) from fun hh => hh rfl), List.append_nil,
        splitFirst_of_not_mem '?' _ hque]
    · rw [if_pos hQ, splitFirst_append_cons '?' u2 Q hque]
  · rw [if_pos hF, splitFirst_append_cons '#' _ F hhash]
    dsimp only
    by_cases hQ : Q = []
    · rw [hQ, if_neg (show ¬ (([] : List Char) ≠ []) from fun hh => hh rfl), List.append_nil,
        splitFirst_of_not_mem '?' _ hque]
    · rw [if_pos hQ, splitFirst_append_cons '?' u2 Q hque]

end Scraper

namespace Scraper

/-! ### Helpers for the idempotence theorem -/

theorem ssw_slashslash_append (x : List Char) (c0 : Char) (r : List Char)
    (hx : startsWithL (pstr "//") x = false) (hc0 : c0 ≠ '/') :
    startsWithL (pstr "//") (x ++ c0 :: r) = false := by
  have h2 : ('/' : Char) ≠ c0 := fun he => hc0 he.symm
  cases x with
  | nil =>
    rw [List.nil_append]
    show startsWithL ['/', '/'] (c0 :: r) = false
    simp [startsWithL, h2]
  | cons a t =>
    cases t with
    | nil =>
      rw [List.cons_append, List.nil_append]
      show startsWithL ['/', '/'] (a :: c0 :: r) = false
      simp [startsWithL, h2]
    | cons a2 t2 =>
      rw [List.cons_append, List.cons_append]
      show startsWithL ['/', '/'] (a :: a2 :: (t2 ++ c0 :: r)) = false
      have hx2 : startsWithL ['/', '/'] (a :: a2 :: t2) = false := hx
      simp only [startsWithL] at hx2 ⊢
      simpa using hx2

theorem ssw_u2then (U : List Char) (hU : startsWithL (pstr "//") U = false) :
    startsWithL (pstr "//") (if U ≠ [] ∧ U.head? ≠ some '/' then '/' :: U else U) = false := by
  split
  · next hcnd =>
    obtain ⟨hne, hhd⟩ := hcnd
    cases U with
    | nil => exact absurd rfl hne
    | cons c t =>
      have h2 : ('/' : Char) ≠ c := fun he => hhd (by rw [← he]; rfl)
      show startsWithL ['/', '/'] ('/' :: c :: t) = false
      simp [startsWithL, h2]
  · exact hU

theorem slashed_of_slashheaded (U : List Char) (h : U = [] ∨ ∃ t, U = '/' :: t) :
    (if U ≠ [] ∧ U.head? ≠ some '/' then '/' :: U else U) = U := by
  rcases h with h | ⟨t, h⟩
  · subst h
    rw [if_neg (fun hh => hh.1 rfl)]
  · subst h
    rw [if_neg (fun hh => hh.2 rfl)]

theorem append_ite_form (x y : List Char) (c : Char) :
    (if y ≠ [] then x ++ c :: y else x) = x ++ (if y ≠ [] then c :: y else []) := by
  by_cases h : y = []
  · rw [if_neg (fun hh => hh h), if_neg (fun hh => hh h), List.append_nil]
  · rw [if_pos h, if_pos h]

theorem encodePath_slashed (pp : List Char) :
    encodePath (if (encodePath pp).head? = some '/' then encodePath pp
      else '/' :: encodePath pp)
    = (if (encodePath pp).head? = some '/' then encodePath pp
      else '/' :: encodePath pp) := by
  split
  · exact encodePath_idem pp
  · rw [encodePath_cons_slash, encodePath_idem]

end Scraper

namespace Scraper

theorem slashed_always (U : List Char) :
    (if U ≠ [] ∧ U.head? ≠ some '/' then '/' :: U else U) = []
    ∨ ∃ t, (if U ≠ [] ∧ U.head? ≠ some '/' then '/' :: U else U) = '/' :: t := by
  split
  · exact Or.inr ⟨U, rfl⟩
  · next hcnd =>
    cases U with
    | nil => exact Or.inl rfl
    | cons c t =>
      by_cases hch : c = '/'
      · exact Or.inr ⟨t, by rw [hch]⟩
      · refine absurd ⟨List.cons_ne_nil c t, fun hh => hch ?_⟩ hcnd
        rw [List.head?_cons] at hh
        injection hh with h3

theorem slashed_mem (U : List Char) (c : Char)
    (hcm : c ∈ (if U ≠ [] ∧ U.head? ≠ some '/' then '/' :: U else U)) :
    c = '/' ∨ c ∈ U := by
  revert hcm
  split
  · intro hcm
    rcases List.mem_cons.mp hcm with hcm | hcm
    · exact Or.inl hcm
    · exact Or.inr hcm
  · exact fun hcm => Or.inr hcm

theorem encodePath_slashed2 (pp : List Char) :
    encodePath (if encodePath pp ≠ [] ∧ (encodePath pp).head? ≠ some '/'
      then '/' :: encodePath pp else encodePath pp)
    = (if encodePath pp ≠ [] ∧ (encodePath pp).head? ≠ some '/'
      then '/' :: encodePath pp else encodePath pp) := by
  split
  · rw [encodePath_cons_slash, encodePath_idem]
  · exact encodePath_idem pp

/-- `_normalize_url` on a canonical `scheme://netloc...` string whose parse is
known: the pass-through and scheme tests resolve, and the result is the
rebuild of the parse. -/
theorem normalizeUrl_canonical (b : Option (List Char)) (S NL u2 Q F : List Char)
    (p2 : UrlParts)
    (hS : S = pstr "http" ∨ S = pstr "https")
    (hupar : urlparseE [] (((S ++ ':' :: '/' :: '/' :: (NL ++ u2))
        ++ (if Q ≠ [] then '?' :: Q else []))
        ++ (if F ≠ [] then '#' :: F else [])) = .ok p2) :
    normalizeUrl (((S ++ ':' :: '/' :: '/' :: (NL ++ u2))
        ++ (if Q ≠ [] then '?' :: Q else []))
        ++ (if F ≠ [] then '#' :: F else [])) b = rebuildParsed p2 := by
  have hpt2 : passThroughUrl (((S ++ ':' :: '/' :: '/' :: (NL ++ u2))
      ++ (if Q ≠ [] then '?' :: Q else []))
      ++ (if F ≠ [] then '#' :: F else [])) = false := by
    rcases hS with hs | hs <;> rw [hs] <;> rfl
  have hhp2 : httpPrefixed (((S ++ ':' :: '/' :: '/' :: (NL ++ u2))
      ++ (if Q ≠ [] then '?' :: Q else []))
      ++ (if F ≠ [] then '#' :: F else [])) = true := by
    rcases hS with hs | hs <;> rw [hs] <;> rfl
  unfold normalizeUrl normCore
  rw [if_neg (by rw [hpt2]; exact Bool.false_ne_true)]
  dsimp only
  rw [if_pos hhp2]
  dsimp only
  rw [hupar]

end Scraper

namespace Scraper

/-- C1: `_normalize_url` is not idempotent in general (see
`normalizeUrl_not_idempotent`), but it is on its http(s) mainline: whenever the
first pass parses the URL (rather than passing it through) into an `http`/`https`
result whose encoded path does not masquerade as a `//` netloc marker when the
netloc is empty, and whose fully-decoded query stays free of `#` and the
stripped bytes on the Google-Fonts host, a second pass reproduces the first. -/
theorem normalizeUrl_idempotent_amended (u : List Char) (b : Option (List Char))
    (h : match normCore u b with
      | none => True
      | some p =>
        (p.scheme = pstr "http" ∨ p.scheme = pstr "https")
        ∧ (p.netloc = [] → startsWithL (pstr "//") (encodePath p.path) = false)
        ∧ (fontsHost p.netloc = true →
            ∀ c ∈ unquoteFix p.query, c ≠ '#' ∧ c ≠ '\t' ∧ c ≠ '\r' ∧ c ≠ '\n')) :
    normalizeUrl (normalizeUrl u b) b = normalizeUrl u b := by
  cases hc : normCore u b with
  | none =>
    have h1 : normalizeUrl u b = u := by
      unfold normalizeUrl
      rw [hc]
    rw [h1]
    exact h1
  | some p =>
    rw [hc] at h
    obtain ⟨hS, hNLstart, hfonts⟩ := h
    have h1 : normalizeUrl u b = rebuildParsed p := by
      unfold normalizeUrl
      rw [hc]
    rw [h1]
    have hfull : ∃ full, urlparseE [] full = .ok p := by
      unfold normCore at hc
      split at hc
      · exact Option.noConfusion hc
      · dsimp only at hc
        split at hc
        · exact Option.noConfusion hc
        · exact Option.noConfusion hc
        · next full heq =>
          split at hc
          · exact Option.noConfusion hc
          · next q heq2 =>
            injection hc with hq
            exact ⟨full, hq ▸ heq2⟩
    obtain ⟨full, hup⟩ := hfull
    obtain ⟨hNL, hbrk, hpath, hparams, hquery, hfrag⟩ := urlparseE_ok_facts full p hup
    have hSne : p.scheme ≠ [] := by
      rcases hS with hs | hs <;> rw [hs] <;> decide
    have husesNet : usesNetloc.contains p.scheme = true := by
      rcases hS with hs | hs <;> rw [hs] <;> decide
    have husesPar : usesParams.contains p.scheme = true := by
      rcases hS with hs | hs <;> rw [hs] <;> decide
    have hEc : ∀ c ∈ encodePath p.path,
        c ≠ '#' ∧ c ≠ '?' ∧ c ≠ ';' ∧ c ≠ '\t' ∧ c ≠ '\r' ∧ c ≠ '\n' := by
      intro c hcm
      refine ⟨?_, ?_, ?_, ?_, ?_, ?_⟩ <;> intro he <;> subst he
      · exact encodePath_not_mem _ '#' (by decide) (by decide) (by decide) (by decide)
          (by decide) hcm
      · exact encodePath_not_mem _ '?' (by decide) (by decide) (by decide) (by decide)
          (by decide) hcm
      · exact encodePath_not_mem _ ';' (by decide) (by decide) (by decide) (by decide)
          (by decide) hcm
      · exact encodePath_not_mem _ '\t' (by decide) (by decide) (by decide) (by decide)
          (by decide) hcm
      · exact encodePath_not_mem _ '\r' (by decide) (by decide) (by decide) (by decide)
          (by decide) hcm
      · exact encodePath_not_mem _ '\n' (by decide) (by decide) (by decide) (by decide)
          (by decide) hcm
    have hQcF : ∀ c ∈ encodeQuery p.netloc p.query,
        c ≠ '#' ∧ c ≠ '\t' ∧ c ≠ '\r' ∧ c ≠ '\n' := by
      intro c hcm
      unfold encodeQuery at hcm
      by_cases hq0 : p.query = []
      · rw [if_pos hq0] at hcm
        cases hcm
      · rw [if_neg hq0] at hcm
        by_cases hfh : fontsHost p.netloc = true
        · rw [if_pos hfh] at hcm
          exact hfonts hfh c hcm
        · rw [if_neg hfh] at hcm
          refine ⟨?_, ?_, ?_, ?_⟩ <;> intro he <;> subst he
          · exact quoteL_not_mem _ '#' (by decide) (by decide) (by decide) (by decide) _ hcm
          · exact quoteL_not_mem _ '\t' (by decide) (by decide) (by decide) (by decide) _ hcm
          · exact quoteL_not_mem _ '\r' (by decide) (by decide) (by decide) (by decide) _ hcm
          · exact quoteL_not_mem _ '\n' (by decide) (by decide) (by decide) (by decide) _ hcm
    by_cases hPAR : p.params = []
    · have hUeq : (if p.params ≠ [] then encodePath p.path ++ ';' :: p.params
          else encodePath p.path) = encodePath p.path := if_neg (fun hh => hh hPAR)
      have hcond1 : p.netloc ≠ [] ∨ (p.scheme ≠ [] ∧ usesNetloc.contains p.scheme = true
          ∧ ¬ startsWithL (pstr "//") (encodePath p.path) = true) := by
        by_cases hNLe : p.netloc = []
        · right
          refine ⟨hSne, husesNet, ?_⟩
          rw [hNLstart hNLe]
          exact Bool.false_ne_true
        · exact Or.inl hNLe
      have hstep : rebuildParsed p
          = ((p.scheme ++ ':' :: '/' :: '/' :: (p.netloc
              ++ (if encodePath p.path ≠ [] ∧ (encodePath p.path).head? ≠ some '/'
                  then '/' :: encodePath p.path else encodePath p.path)))
            ++ (if encodeQuery p.netloc p.query ≠ []
                then '?' :: encodeQuery p.netloc p.query else []))
          ++ (if p.fragment ≠ [] then '#' :: p.fragment else []) := by
        unfold rebuildParsed urlunparseM urlunsplitM
        dsimp only
        rw [hUeq, if_pos hcond1, if_pos hSne, append_ite_form, append_ite_form]
      have hu2c : ∀ c ∈ (if encodePath p.path ≠ [] ∧ (encodePath p.path).head? ≠ some '/'
          then '/' :: encodePath p.path else encodePath p.path),
          c ≠ '#' ∧ c ≠ '?' ∧ c ≠ '\t' ∧ c ≠ '\r' ∧ c ≠ '\n' := by
        intro c hcm
        rcases slashed_mem _ c hcm with hcm | hcm
        · subst hcm
          exact ⟨by decide, by decide, by decide, by decide, by decide⟩
        · have he := hEc c hcm
          exact ⟨he.1, he.2.1, he.2.2.2.1, he.2.2.2.2.1, he.2.2.2.2.2⟩
      have hsplit2 := urlsplitE_rebuilt p.scheme p.netloc
          (if encodePath p.path ≠ [] ∧ (encodePath p.path).head? ≠ some '/'
            then '/' :: encodePath p.path else encodePath p.path)
          (encodeQuery p.netloc p.query) p.fragment hS hNL hbrk
          (slashed_always _) hu2c hQcF hfrag
      have hsemi : ';' ∉ (if encodePath p.path ≠ [] ∧ (encodePath p.path).head? ≠ some '/'
          then '/' :: encodePath p.path else encodePath p.path) := by
        intro hm
        rcases slashed_mem _ ';' hm with hm | hm
        · exact absurd hm (by decide)
        · exact (hEc ';' hm).2.2.1 rfl
      have hupar : urlparseE [] (((p.scheme ++ ':' :: '/' :: '/' :: (p.netloc
              ++ (if encodePath p.path ≠ [] ∧ (encodePath p.path).head? ≠ some '/'
                  then '/' :: encodePath p.path else encodePath p.path)))
            ++ (if encodeQuery p.netloc p.query ≠ []
                then '?' :: encodeQuery p.netloc p.query else []))
          ++ (if p.fragment ≠ [] then '#' :: p.fragment else []))
          = .ok ⟨p.scheme, p.netloc,
              (if encodePath p.path ≠ [] ∧ (encodePath p.path).head? ≠ some '/'
                  then '/' :: encodePath p.path else encodePath p.path), [],
              encodeQuery p.netloc p.query, p.fragment⟩ := by
        unfold urlparseE
        rw [hsplit2]
        dsimp only [bind, Except.bind, pure, Except.pure]
        rw [if_neg ?hcnd]
        case hcnd =>
          intro hh
          rw [containsC_false _ ';' hsemi, Bool.and_false] at hh
          exact Bool.false_ne_true hh
      have h2 := normalizeUrl_canonical b p.scheme p.netloc
          (if encodePath p.path ≠ [] ∧ (encodePath p.path).head? ≠ some '/'
            then '/' :: encodePath p.path else encodePath p.path)
          (encodeQuery p.netloc p.query) p.fragment _ hS hupar
      rw [hstep, h2]
      have hcond2 : p.netloc ≠ [] ∨ (p.scheme ≠ [] ∧ usesNetloc.contains p.scheme = true
          ∧ ¬ startsWithL (pstr "//")
            (if encodePath p.path ≠ [] ∧ (encodePath p.path).head? ≠ some '/'
              then '/' :: encodePath p.path else encodePath p.path) = true) := by
        by_cases hNLe : p.netloc = []
        · right
          refine ⟨hSne, husesNet, ?_⟩
          rw [ssw_u2then _ (hNLstart hNLe)]
          exact Bool.false_ne_true
        · exact Or.inl hNLe
      unfold rebuildParsed urlunparseM urlunsplitM
      dsimp only
      rw [if_neg (show ¬ (([] : List Char) ≠ []) from fun hh => hh rfl)]
      rw [encodePath_slashed2, if_pos hcond2, if_pos hSne,
        slashed_of_slashheaded _ (slashed_always _), encodeQuery_stable,
        append_ite_form, append_ite_form]
    · have hUeq : (if p.params ≠ [] then encodePath p.path ++ ';' :: p.params
          else encodePath p.path) = encodePath p.path ++ ';' :: p.params := if_pos hPAR
      have hu2eq : (if (encodePath p.path ++ ';' :: p.params) ≠ []
            ∧ (encodePath p.path ++ ';' :: p.params).head? ≠ some '/'
          then '/' :: (encodePath p.path ++ ';' :: p.params)
          else encodePath p.path ++ ';' :: p.params)
          = (if (encodePath p.path).head? = some '/' then encodePath p.path
             else '/' :: encodePath p.path) ++ ';' :: p.params := by
        cases hE : encodePath p.path with
        | nil =>
          rw [List.nil_append,
            if_pos (show (';' :: p.params) ≠ [] ∧ (';' :: p.params).head? ≠ some '/' from
              ⟨List.cons_ne_nil _ _, by
                rw [List.head?_cons]
                intro hh
                injection hh with h3
                exact absurd h3 (by decide)⟩),
            if_neg (show ¬ ([] : List Char).head? = some '/' from
              fun hh => Option.noConfusion hh)]
          rfl
        | cons c t =>
          by_cases hch : c = '/'
          · subst hch
            rw [if_neg (show ¬ (((('/' :: t) ++ ';' :: p.params) ≠ [])
                ∧ (('/' :: t) ++ ';' :: p.params).head? ≠ some '/') from fun hh =>
                  hh.2 (by rw [List.cons_append, List.head?_cons])),
              if_pos (show ('/' :: t).head? = some '/' from rfl)]
          · rw [if_pos (show (((c :: t) ++ ';' :: p.params) ≠ [])
                ∧ ((c :: t) ++ ';' :: p.params).head? ≠ some '/' from
                ⟨by rw [List.cons_append]; exact List.cons_ne_nil _ _, by
                  rw [List.cons_append, List.head?_cons]
                  intro hh
                  injection hh with h3
                  exact hch h3⟩),
              if_neg (show ¬ (c :: t).head? = some '/' from by
                rw [List.head?_cons]
                intro hh
                injection hh with h3
                exact hch h3)]
            rw [List.cons_append]
            rfl
      have hcond1b : p.netloc ≠ [] ∨ (p.scheme ≠ [] ∧ usesNetloc.contains p.scheme = true
          ∧ ¬ startsWithL (pstr "//") (encodePath p.path ++ ';' :: p.params) = true) := by
        by_cases hNLe : p.netloc = []
        · right
          refine ⟨hSne, husesNet, ?_⟩
          rw [ssw_slashslash_append _ ';' _ (hNLstart hNLe) (by decide)]
          exact Bool.false_ne_true
        · exact Or.inl hNLe
      have hstep : rebuildParsed p
          = ((p.scheme ++ ':' :: '/' :: '/' :: (p.netloc
              ++ ((if (encodePath p.path).head? = some '/' then encodePath p.path
                   else '/' :: encodePath p.path) ++ ';' :: p.params)))
            ++ (if encodeQuery p.netloc p.query ≠ []
                then '?' :: encodeQuery p.netloc p.query else []))
          ++ (if p.fragment ≠ [] then '#' :: p.fragment else []) := by
        unfold rebuildParsed urlunparseM urlunsplitM
        dsimp only
        rw [hUeq, if_pos hcond1b, if_pos hSne, hu2eq, append_ite_form, append_ite_form]
      have hSEmem : ∀ c ∈ (if (encodePath p.path).head? = some '/' then encodePath p.path
          else '/' :: encodePath p.path), c = '/' ∨ c ∈ encodePath p.path := by
        intro c hcm
        revert hcm
        split
        · exact fun hcm => Or.inr hcm
        · intro hcm
          rcases List.mem_cons.mp hcm with hcm | hcm
          · exact Or.inl hcm
          · exact Or.inr hcm
      have hu2c : ∀ c ∈ (if (encodePath p.path).head? = some '/' then encodePath p.path
            else '/' :: encodePath p.path) ++ ';' :: p.params,
          c ≠ '#' ∧ c ≠ '?' ∧ c ≠ '\t' ∧ c ≠ '\r' ∧ c ≠ '\n' := by
        intro c hcm
        rcases List.mem_append.mp hcm with hcm | hcm
        · rcases hSEmem c hcm with hcm | hcm
          · subst hcm
            exact ⟨by decide, by decide, by decide, by decide, by decide⟩
          · have he := hEc c hcm
            exact ⟨he.1, he.2.1, he.2.2.2.1, he.2.2.2.2.1, he.2.2.2.2.2⟩
        · rcases List.mem_cons.mp hcm with hcm | hcm
          · subst hcm
            exact ⟨by decide, by decide, by decide, by decide, by decide⟩
          · have hp2 := hparams c hcm
            exact ⟨hp2.2.1, hp2.2.2.1, hp2.2.2.2.1, hp2.2.2.2.2.1, hp2.2.2.2.2.2⟩
      have hshape : (if (encodePath p.path).head? = some '/' then encodePath p.path
            else '/' :: encodePath p.path) ++ ';' :: p.params = []
          ∨ ∃ t, (if (encodePath p.path).head? = some '/' then encodePath p.path
            else '/' :: encodePath p.path) ++ ';' :: p.params = '/' :: t := by
        right
        split
        · next hcnd =>
          cases hEp : encodePath p.path with
          | nil =>
            rw [hEp] at hcnd
            exact Option.noConfusion hcnd
          | cons c t =>
            rw [hEp, List.head?_cons] at hcnd
            injection hcnd with h3
            rw [h3, List.cons_append]
            exact ⟨t ++ ';' :: p.params, rfl⟩
        · exact ⟨encodePath p.path ++ ';' :: p.params, by rw [List.cons_append]⟩
      have hsplit2 := urlsplitE_rebuilt p.scheme p.netloc
          ((if (encodePath p.path).head? = some '/' then encodePath p.path
            else '/' :: encodePath p.path) ++ ';' :: p.params)
          (encodeQuery p.netloc p.query) p.fragment hS hNL hbrk hshape hu2c hQcF hfrag
      have hslashSE : '/' ∈ (if (encodePath p.path).head? = some '/' then encodePath p.path
          else '/' :: encodePath p.path) := by
        split
        · next hcnd =>
          cases hEp : encodePath p.path with
          | nil =>
            rw [hEp] at hcnd
            exact Option.noConfusion hcnd
          | cons c t =>
            rw [hEp, List.head?_cons] at hcnd
            injection hcnd with h3
            rw [← h3]
            exact List.mem_cons_self _ _
        · exact List.mem_cons_self _ _
      obtain ⟨A, B, hAB, hBn⟩ := last_sep_decomp '/' _ hslashSE
      have hsemiB : ';' ∉ B := by
        intro hm
        have hmem : (';' : Char) ∈ (if (encodePath p.path).head? = some '/'
            then encodePath p.path else '/' :: encodePath p.path) := by
          rw [hAB]
          exact List.mem_append_right _ (List.mem_cons_of_mem _ hm)
        rcases hSEmem ';' hmem with hm2 | hm2
        · exact absurd hm2 (by decide)
        · exact (hEc ';' hm2).2.2.1 rfl
      have hslashB : '/' ∉ B ++ ';' :: p.params := by
        intro hm
        rcases List.mem_append.mp hm with hm | hm
        · exact hBn hm
        · rcases List.mem_cons.mp hm with hm | hm
          · exact absurd hm (by decide)
          · exact (hparams '/' hm).1 rfl
      have hcontSlash : ((if (encodePath p.path).head? = some '/' then encodePath p.path
          else '/' :: encodePath p.path) ++ ';' :: p.params).contains '/' = true := by
        refine (containsC_iff _ _).mpr ?_
        rw [hAB]
        exact List.mem_append_left _ (List.mem_append_right _ (List.mem_cons_self _ _))
      have hsemiT : ((if (encodePath p.path).head? = some '/' then encodePath p.path
          else '/' :: encodePath p.path) ++ ';' :: p.params).contains ';' = true :=
        (containsC_iff _ _).mpr (List.mem_append_right _ (List.mem_cons_self _ _))
      have hdecomp : (if (encodePath p.path).head? = some '/' then encodePath p.path
          else '/' :: encodePath p.path) ++ ';' :: p.params
          = A ++ '/' :: (B ++ ';' :: p.params) := by
        rw [hAB, List.append_assoc, List.cons_append]
      have hpp : splitparamsM ((if (encodePath p.path).head? = some '/' then encodePath p.path
          else '/' :: encodePath p.path) ++ ';' :: p.params)
          = ((if (encodePath p.path).head? = some '/' then encodePath p.path
            else '/' :: encodePath p.path), p.params) := by
        unfold splitparamsM
        rw [if_pos hcontSlash, hdecomp,
          splitLast_append_cons '/' A (B ++ ';' :: p.params) hslashB]
        dsimp only
        rw [splitFirst_append_cons ';' B p.params hsemiB]
        dsimp only
        rw [← hAB]
      have hupar : urlparseE [] (((p.scheme ++ ':' :: '/' :: '/' :: (p.netloc
              ++ ((if (encodePath p.path).head? = some '/' then encodePath p.path
                   else '/' :: encodePath p.path) ++ ';' :: p.params)))
            ++ (if encodeQuery p.netloc p.query ≠ []
                then '?' :: encodeQuery p.netloc p.query else []))
          ++ (if p.fragment ≠ [] then '#' :: p.fragment else []))
          = .ok ⟨p.scheme, p.netloc,
              (if (encodePath p.path).head? = some '/' then encodePath p.path
                else '/' :: encodePath p.path), p.params,
              encodeQuery p.netloc p.query, p.fragment⟩ := by
        unfold urlparseE
        rw [hsplit2]
        dsimp only [bind, Except.bind, pure, Except.pure]
        rw [if_pos (show (usesParams.contains p.scheme
            && ((if (encodePath p.path).head? = some '/' then encodePath p.path
                else '/' :: encodePath p.path) ++ ';' :: p.params).contains ';') = true from by
          rw [husesPar, hsemiT]; rfl)]
        rw [hpp]
      have h2 := normalizeUrl_canonical b p.scheme p.netloc
          ((if (encodePath p.path).head? = some '/' then encodePath p.path
            else '/' :: encodePath p.path) ++ ';' :: p.params)
          (encodeQuery p.netloc p.query) p.fragment _ hS hupar
      rw [hstep, h2]
      have hsswSE : p.netloc = [] → startsWithL (pstr "//")
          ((if (encodePath p.path).head? = some '/' then encodePath p.path
            else '/' :: encodePath p.path) ++ ';' :: p.params) = false := by
        intro hNLe
        have h3 := ssw_u2then (encodePath p.path ++ ';' :: p.params)
          (ssw_slashslash_append _ ';' _ (hNLstart hNLe) (by decide))
        rw [hu2eq] at h3
        exact h3
      have hcond2b : p.netloc ≠ [] ∨ (p.scheme ≠ [] ∧ usesNetloc.contains p.scheme = true
          ∧ ¬ startsWithL (pstr "//")
            ((if (encodePath p.path).head? = some '/' then encodePath p.path
              else '/' :: encodePath p.path) ++ ';' :: p.params) = true) := by
        by_cases hNLe : p.netloc = []
        · right
          refine ⟨hSne, husesNet, ?_⟩
          rw [hsswSE hNLe]
          exact Bool.false_ne_true
        · exact Or.inl hNLe
      unfold rebuildParsed urlunparseM urlunsplitM
      dsimp only
      rw [if_pos hPAR, encodePath_slashed, if_pos hcond2b, if_pos hSne,
        slashed_of_slashheaded _ hshape, encodeQuery_stable,
        append_ite_form, append_ite_form]

end Scraper

namespace Scraper

/-- Witness: the amended idempotence theorem applied to a concrete
double-encoded image URL. -/
theorem normalizeUrl_idempotent_amended_witness :
    normalizeUrl (normalizeUrl (pstr "http://example.com/a%2520b.png") none) none
      = normalizeUrl (pstr "http://example.com/a%2520b.png") none :=
  normalizeUrl_idempotent_amended (pstr "http://example.com/a%2520b.png") none (by
    rw [show normCore (pstr "http://example.com/a%2520b.png") none
        = some ⟨pstr "http", pstr "example.com", pstr "/a%2520b.png", [], [], []⟩ from rfl]
    exact ⟨Or.inl rfl, fun hh => absurd hh (by decide), fun hh => absurd hh (by decide)⟩)

end Scraper
